import Mathlib

/-!
Verification of the declaration-scanning / indexing engine of the
mcp-whatsmeow repository (file `ast-parser.ts`, class `AstParser`).

Shallow embedding conventions:
* JS strings are modelled as `List Char`; a file's content is a `List Char`
  and its line list a `List (List Char)`.
* JS regular expressions are translated to deterministic recognizers; where
  the JS engine would backtrack, the recognizer implements the backtracking
  outcome (noted at each definition).
* `Array.prototype.sort` (stable since ES2019) is modelled by a stable
  insertion sort; `localeCompare` is modelled as code-point lexicographic
  comparison.
* `Set` / `Map` (insertion ordered) are modelled by append-if-absent lists
  and association lists.
* Filesystem access is out of scope: functions that read the tree take the
  list of (relative path, content) pairs as an argument.
-/

/-- JS `\s` (ASCII fragment; the inputs scanned here are source text). -/
def isWsChar (c : Char) : Bool :=
  c = ' ' || c = '\t' || c = '\r' || c = '\n' || c = '\x0b' || c = '\x0c'

/-- JS `\w`, i.e. `[A-Za-z0-9_]`. -/
def isWordChar (c : Char) : Bool :=
  ('A' ≤ c && c ≤ 'Z') || ('a' ≤ c && c ≤ 'z') || ('0' ≤ c && c ≤ '9') || c = '_'

/-- `[A-Za-z_]` (a word character that is not a digit). -/
def isWordStart (c : Char) : Bool :=
  ('A' ≤ c && c ≤ 'Z') || ('a' ≤ c && c ≤ 'z') || c = '_'

/-- `[A-Z]`. -/
def isUpperAZ (c : Char) : Bool := 'A' ≤ c && c ≤ 'Z'

/-- JS `String.prototype.toLowerCase` on one char (ASCII fragment). -/
def jsCharToLower (c : Char) : Char :=
  if isUpperAZ c then Char.ofNat (c.toNat + 32) else c

/-- JS `String.prototype.toLowerCase` (ASCII fragment). -/
def jsToLower (s : List Char) : List Char := s.map jsCharToLower

/-- Remove trailing whitespace. -/
def dropTrailWs (s : List Char) : List Char :=
  (s.reverse.dropWhile isWsChar).reverse

/-- JS `String.prototype.trim`. -/
def jsTrim (s : List Char) : List Char :=
  dropTrailWs (s.dropWhile isWsChar)

/-- Split on `/\r?\n/` — accumulator worker. -/
def splitLinesGo (acc : List Char) : List Char → List (List Char)
  | [] => [acc.reverse]
  | '\n' :: rest => acc.reverse :: splitLinesGo [] rest
  | '\r' :: '\n' :: rest => acc.reverse :: splitLinesGo [] rest
  | c :: rest => splitLinesGo (c :: acc) rest

/-- JS `content.split(/\r?\n/)`. -/
def splitLines (s : List Char) : List (List Char) := splitLinesGo [] s

/-- JS `Array.prototype.join('\n')`. -/
def joinNl : List (List Char) → List Char
  | [] => []
  | [l] => l
  | l :: ls => l ++ '\n' :: joinNl ls

/-- JS `Array.prototype.join(' ')`. -/
def joinSp : List (List Char) → List Char
  | [] => []
  | [l] => l
  | l :: ls => l ++ ' ' :: joinSp ls

/-- Worker for `splitOnChar`. -/
def splitOnCharGo (sep : Char) : List Char → List Char → List (List Char)
  | acc, [] => [acc.reverse]
  | acc, c :: rest =>
    if c = sep then acc.reverse :: splitOnCharGo sep [] rest
    else splitOnCharGo sep (c :: acc) rest

/-- JS `String.prototype.split(sep)` for a one-char separator. -/
def splitOnChar (sep : Char) (s : List Char) : List (List Char) :=
  splitOnCharGo sep [] s

/-- Maximal runs of non-whitespace characters: `s.split(/\s+/).filter(Boolean)`
applied to a trimmed string. -/
def splitNonWs : List Char → List (List Char)
  | [] => []
  | c :: rest =>
    if isWsChar c then splitNonWs rest
    else
      match splitNonWs rest with
      | [] => [[c]]
      | w :: ws =>
        match rest with
        | [] => [[c]]
        | d :: _ => if isWsChar d then [c] :: w :: ws else (c :: w) :: ws

/-- Substring test, JS `String.prototype.includes`. -/
def isSubstr (needle : List Char) : List Char → Bool
  | [] => needle.isPrefixOf []
  | c :: rest => needle.isPrefixOf (c :: rest) || isSubstr needle rest

/-- Code-point lexicographic strict order on strings (model of a negative
`localeCompare` result). -/
def strLtB : List Char → List Char → Bool
  | [], [] => false
  | [], _ :: _ => true
  | _ :: _, [] => false
  | a :: as, b :: bs =>
    if a.toNat < b.toNat then true
    else if b.toNat < a.toNat then false
    else strLtB as bs

/-- Append-if-absent: one `Set.prototype.add` step, insertion ordered. -/
def setAdd (l : List (List Char)) (x : List Char) : List (List Char) :=
  if x ∈ l then l else l ++ [x]

/-- First-occurrence dedup: JS `Array.from(new Set(xs))`. -/
def dedupFirst (l : List (List Char)) : List (List Char) := l.foldl setAdd []

/-- Insert `x` before the first element `y` with `le x y` (stable position). -/
def insertLe (le : α → α → Bool) (x : α) : List α → List α
  | [] => [x]
  | y :: ys => if le x y then x :: y :: ys else y :: insertLe le x ys

/-- Stable insertion sort: the model of JS `Array.prototype.sort` (stable),
where `le a b` means the comparator returns a non-positive value on `(a, b)`. -/
def sortStable (le : α → α → Bool) : List α → List α
  | [] => []
  | x :: xs => insertLe le x (sortStable le xs)

/-- Strict "ranks before" comparator derived from a numeric key (descending)
with a string tie-break key (ascending). -/
def keyLt (sc : α → Nat) (nm : α → List Char) (a b : α) : Bool :=
  sc b < sc a || (sc a = sc b && strLtB (nm a) (nm b))

/-- Non-strict version of `keyLt`: `a` may be placed before `b`. -/
def keyLe (sc : α → Nat) (nm : α → List Char) (a b : α) : Bool :=
  ! keyLt sc nm b a

theorem strLtB_asymm : ∀ {a b : List Char}, strLtB a b = true → strLtB b a = false
  | [], [], h => by simp [strLtB] at h
  | [], _ :: _, _ => by simp [strLtB]
  | _ :: _, [], h => by simp [strLtB] at h
  | a :: as, b :: bs, h => by
    by_cases hab : a.toNat < b.toNat
    · simp [strLtB, hab, Nat.lt_asymm hab]
    · by_cases hba : b.toNat < a.toNat
      · simp [strLtB, hab, hba] at h
      · simp only [strLtB, hab, hba, if_false] at h ⊢
        exact strLtB_asymm h

theorem strLtB_trans : ∀ {a b c : List Char},
    strLtB a b = true → strLtB b c = true → strLtB a c = true
  | [], [], _, h, _ => by simp [strLtB] at h
  | [], _ :: _, [], _, h => by simp [strLtB] at h
  | [], _ :: _, _ :: _, _, _ => by simp [strLtB]
  | _ :: _, [], _, h, _ => by simp [strLtB] at h
  | _ :: _, _ :: _, [], _, h => by simp [strLtB] at h
  | a :: as, b :: bs, c :: cs, h1, h2 => by
    simp only [strLtB] at h1 h2 ⊢
    split at h1
    · rename_i hab
      split at h2
      · rename_i hbc
        simp [Nat.lt_trans hab hbc]
      · rename_i hbc
        split at h2
        · exact absurd h2 (by simp)
        · rename_i hcb
          have hbc' : b.toNat = c.toNat := Nat.le_antisymm (Nat.le_of_not_lt hcb) (Nat.le_of_not_lt hbc)
          simp [hbc' ▸ hab]
    · rename_i hab
      split at h1
      · exact absurd h1 (by simp)
      · rename_i hba
        have hab' : a.toNat = b.toNat := Nat.le_antisymm (Nat.le_of_not_lt hba) (Nat.le_of_not_lt hab)
        split at h2
        · rename_i hbc
          simp [hab' ▸ hbc]
        · rename_i hbc
          split at h2
          · exact absurd h2 (by simp)
          · rename_i hcb
            simp only [hab', hbc, hcb, if_false]
            exact strLtB_trans h1 h2

theorem strLtB_connex : ∀ {a b : List Char},
    strLtB a b = false → strLtB b a = false → a = b
  | [], [], _, _ => rfl
  | [], _ :: _, h, _ => by simp [strLtB] at h
  | _ :: _, [], _, h => by simp [strLtB] at h
  | a :: as, b :: bs, h1, h2 => by
    by_cases hab : a.toNat < b.toNat
    · simp [strLtB, hab] at h1
    · by_cases hba : b.toNat < a.toNat
      · simp [strLtB, hba] at h2
      · have hc : a = b :=
          Char.ext (UInt32.ext (Nat.le_antisymm (Nat.le_of_not_lt hba) (Nat.le_of_not_lt hab)))
        simp only [strLtB, hab, hba, if_false] at h1 h2
        rw [hc, strLtB_connex h1 h2]

theorem keyLe_iff (sc : α → Nat) (nm : α → List Char) (a b : α) :
    keyLe sc nm a b = true ↔
      sc b ≤ sc a ∧ (sc b = sc a → strLtB (nm b) (nm a) = false) := by
  simp only [keyLe, keyLt, Bool.not_eq_eq_eq_not, Bool.not_true, Bool.or_eq_false_iff,
    Bool.and_eq_false_iff, decide_eq_false_iff_not, Nat.not_lt, Bool.not_eq_true]
  constructor
  · rintro ⟨h1, h2 | h2⟩
    · exact ⟨h1, fun hc => absurd hc h2⟩
    · exact ⟨h1, fun _ => h2⟩
  · rintro ⟨h1, h2⟩
    refine ⟨h1, ?_⟩
    by_cases hc : sc b = sc a
    · exact Or.inr (h2 hc)
    · exact Or.inl hc

theorem keyLe_total (sc : α → Nat) (nm : α → List Char) (a b : α) :
    keyLe sc nm a b = true ∨ keyLe sc nm b a = true := by
  by_cases hs : sc a = sc b
  · cases hl : strLtB (nm a) (nm b) with
    | true => exact Or.inl ((keyLe_iff sc nm a b).mpr ⟨hs.ge, fun _ => strLtB_asymm hl⟩)
    | false => exact Or.inr ((keyLe_iff sc nm b a).mpr ⟨hs.le, fun _ => hl⟩)
  · rcases Nat.lt_or_ge (sc a) (sc b) with h | h
    · exact Or.inr ((keyLe_iff sc nm b a).mpr ⟨h.le, fun hc => absurd hc hs⟩)
    · exact Or.inl ((keyLe_iff sc nm a b).mpr ⟨h, fun hc => absurd hc.symm hs⟩)

theorem keyLe_trans (sc : α → Nat) (nm : α → List Char) (a b c : α)
    (h1 : keyLe sc nm a b = true) (h2 : keyLe sc nm b c = true) :
    keyLe sc nm a c = true := by
  rw [keyLe_iff] at h1 h2 ⊢
  obtain ⟨hs1, hn1⟩ := h1
  obtain ⟨hs2, hn2⟩ := h2
  refine ⟨hs2.trans hs1, fun hc => ?_⟩
  have he1 : sc b = sc a := Nat.le_antisymm hs1 (hc ▸ hs2)
  have he2 : sc c = sc b := Nat.le_antisymm hs2 (he1 ▸ hc.ge)
  have hb1 := hn1 he1
  have hb2 := hn2 he2
  cases hca : strLtB (nm c) (nm a) with
  | false => rfl
  | true =>
    exfalso
    rcases Bool.eq_false_or_eq_true (strLtB (nm a) (nm b)) with hab | hab
    · exact absurd (strLtB_trans hca hab) (by simp [hb2])
    · have hnm : nm a = nm b := strLtB_connex hab hb1
      rw [hnm] at hca
      exact absurd hca (by simp [hb2])

theorem keyLe_antisymm_keys (sc : α → Nat) (nm : α → List Char) (a b : α)
    (h1 : keyLe sc nm a b = true) (h2 : keyLe sc nm b a = true) :
    sc a = sc b ∧ nm a = nm b := by
  rw [keyLe_iff] at h1 h2
  have hs : sc a = sc b := Nat.le_antisymm h2.1 h1.1
  exact ⟨hs, strLtB_connex (h2.2 hs) (h1.2 hs.symm)⟩

theorem mem_insertLe (le : α → α → Bool) (x a : α) :
    ∀ l, a ∈ insertLe le x l ↔ a = x ∨ a ∈ l
  | [] => by simp [insertLe]
  | y :: ys => by
    simp only [insertLe]
    split
    · simp
    · rw [List.mem_cons, List.mem_cons, mem_insertLe le x a ys]
      tauto

theorem insertLe_perm (le : α → α → Bool) (x : α) :
    ∀ l, List.Perm (insertLe le x l) (x :: l)
  | [] => by simp [insertLe]
  | y :: ys => by
    simp only [insertLe]
    split
    · exact List.Perm.refl _
    · exact ((insertLe_perm le x ys).cons y).trans (List.Perm.swap x y ys)

theorem sortStable_perm (le : α → α → Bool) : ∀ l, List.Perm (sortStable le l) l
  | [] => List.Perm.refl _
  | x :: xs => (insertLe_perm le x (sortStable le xs)).trans ((sortStable_perm le xs).cons x)

theorem insertLe_pairwise {le : α → α → Bool}
    (htot : ∀ a b, le a b = true ∨ le b a = true)
    (htrans : ∀ a b c, le a b = true → le b c = true → le a c = true)
    (x : α) :
    ∀ {l}, l.Pairwise (fun a b => le a b = true) →
      (insertLe le x l).Pairwise (fun a b => le a b = true) := by
  intro l
  induction l with
  | nil => intro _; simp [insertLe]
  | cons y ys ih =>
    intro hp
    have hy := List.pairwise_cons.mp hp
    simp only [insertLe]
    split
    · rename_i hxy
      refine List.pairwise_cons.mpr ⟨?_, hp⟩
      intro z hz
      rcases List.mem_cons.mp hz with rfl | hz2
      · exact hxy
      · exact htrans x y z hxy (hy.1 z hz2)
    · rename_i hxy
      have hyx : le y x = true := by
        rcases htot x y with h | h
        · exact absurd h hxy
        · exact h
      refine List.pairwise_cons.mpr ⟨?_, ih hy.2⟩
      intro z hz
      rcases (mem_insertLe le x z ys).mp hz with rfl | hz2
      · exact hyx
      · exact hy.1 z hz2

theorem sortStable_pairwise {le : α → α → Bool}
    (htot : ∀ a b, le a b = true ∨ le b a = true)
    (htrans : ∀ a b c, le a b = true → le b c = true → le a c = true) :
    ∀ l : List α, (sortStable le l).Pairwise (fun a b => le a b = true)
  | [] => List.Pairwise.nil
  | x :: xs => insertLe_pairwise htot htrans x (sortStable_pairwise htot htrans xs)

/-- Two sorted permutations of each other are equal, provided the order is
antisymmetric on the elements involved. -/
theorem sorted_perm_eq {le : α → α → Bool} :
    ∀ {l₁ l₂ : List α}, List.Perm l₁ l₂ →
      (∀ a ∈ l₁, ∀ b ∈ l₁, le a b = true → le b a = true → a = b) →
      l₁.Pairwise (fun a b => le a b = true) →
      l₂.Pairwise (fun a b => le a b = true) → l₁ = l₂
  | [], l₂, hperm, _, _, _ => (hperm.nil_eq).symm ▸ rfl
  | x :: xs, [], hperm, _, _, _ => absurd hperm.symm.nil_eq (by simp)
  | x :: xs, y :: ys, hperm, hanti, hp1, hp2 => by
    by_cases hxy : x = y
    · subst hxy
      have htail := hperm.cons_inv
      have heq := sorted_perm_eq htail
        (fun a ha b hb => hanti a (List.mem_cons_of_mem x ha) b (List.mem_cons_of_mem x hb))
        (List.pairwise_cons.mp hp1).2 (List.pairwise_cons.mp hp2).2
      rw [heq]
    · exfalso
      have hymem : y ∈ x :: xs := hperm.symm.subset (List.mem_cons_self y ys)
      have hxmem : x ∈ y :: ys := hperm.subset (List.mem_cons_self x xs)
      have hyxs : y ∈ xs := by
        rcases List.mem_cons.mp hymem with h | h
        · exact absurd h.symm hxy
        · exact h
      have hxys : x ∈ ys := by
        rcases List.mem_cons.mp hxmem with h | h
        · exact absurd h hxy
        · exact h
      have h1 : le x y = true := (List.pairwise_cons.mp hp1).1 y hyxs
      have h2 : le y x = true := (List.pairwise_cons.mp hp2).1 x hxys
      exact hxy (hanti x (List.mem_cons_self x xs) y hymem h1 h2)

/-- Leading maximal `\w*` run and the remainder. -/
def wordRun (s : List Char) : List Char × List Char :=
  (s.takeWhile isWordChar, s.dropWhile isWordChar)

/-- Require at least one whitespace char, then skip the maximal run. -/
def skipWs1 (s : List Char) : Option (List Char) :=
  match s with
  | [] => none
  | c :: _ => if isWsChar c then some (s.dropWhile isWsChar) else none

/-- `/^type\s+([A-Z]\w*)\s+KW\s*\{/` where `KW` is `interface` or `struct`
(the group is the maximal word run; the `\s+` after it forces the split,
so no backtracking outcome differs from this deterministic scan). -/
def matchTypeBlock (kw : List Char) (s : List Char) : Option (List Char) := do
  let r0 ← if ("type".data).isPrefixOf s then some (s.drop 4) else none
  let r1 ← skipWs1 r0
  match r1 with
  | [] => none
  | c :: _ =>
    if isUpperAZ c then
      let (nm, r2) := wordRun r1
      let r3 ← skipWs1 r2
      let r4 ← if kw.isPrefixOf r3 then some (r3.drop kw.length) else none
      match r4.dropWhile isWsChar with
      | '\x7b' :: _ => some nm
      | _ => none
    else none

/-- `/^type\s+([A-Z]\w*)\s*(=)?\s*(.+)$/`, returning the name (group 1) and
the right-hand text (group 3). The JS engine backtracks when `(.+)` would be
empty: it gives back a whitespace char, the `=`, or the last character of the
name, in that order; each such case is written out below. -/
def matchTypeAlias (s : List Char) : Option (List Char × List Char) := do
  let r0 ← if ("type".data).isPrefixOf s then some (s.drop 4) else none
  let r1 ← skipWs1 r0
  match r1 with
  | [] => none
  | c :: _ =>
    if isUpperAZ c then
      let (nm, t) := wordRun r1
      match t with
      | [] =>
        -- `S` is all word chars: `(.+)` takes the last char of the name run.
        match nm.reverse with
        | last :: (m2 :: ms) => some ((m2 :: ms).reverse, [last])
        | _ => none
      | _ :: _ =>
        let t1 := t.dropWhile isWsChar
        match t1 with
        | '=' :: t2 =>
          let t3 := t2.dropWhile isWsChar
          match t3 with
          | _ :: _ => some (nm, t3)
          | [] =>
            -- nothing after `=` and its trailing spaces
            match t2.reverse with
            | lastWs :: _ => some (nm, [lastWs])   -- give back one space
            | [] => some (nm, ['='])               -- give back the `=`
        | _ :: _ => some (nm, t1)
        | [] =>
          -- `t` is all whitespace: `(.+)` takes the last whitespace char.
          match t.reverse with
          | lastWs :: _ => some (nm, [lastWs])
          | [] => none
    else none

/-- `/^func\s*\(([^)]+)\)\s*([A-Z]\w*)\s*\(/` — returns the method name. -/
def matchMethodDecl (s : List Char) : Option (List Char) := do
  let r0 ← if ("func".data).isPrefixOf s then some (s.drop 4) else none
  let r1 := r0.dropWhile isWsChar
  match r1 with
  | '(' :: r2 =>
    let recv := r2.takeWhile (fun c => !(c = ')'))
    let r3 := r2.dropWhile (fun c => !(c = ')'))
    match recv, r3 with
    | _ :: _, ')' :: r4 =>
      let r5 := r4.dropWhile isWsChar
      match r5 with
      | [] => none
      | c :: _ =>
        if isUpperAZ c then
          let (nm, r6) := wordRun r5
          match r6.dropWhile isWsChar with
          | '(' :: _ => some nm
          | _ => none
        else none
    | _, _ => none
  | _ => none

/-- `/^func\s+([A-Z]\w*)\s*\(/` — returns the function name. -/
def matchFuncDecl (s : List Char) : Option (List Char) := do
  let r0 ← if ("func".data).isPrefixOf s then some (s.drop 4) else none
  let r1 ← skipWs1 r0
  match r1 with
  | [] => none
  | c :: _ =>
    if isUpperAZ c then
      let (nm, r2) := wordRun r1
      match r2.dropWhile isWsChar with
      | '(' :: _ => some nm
      | _ => none
    else none

/-- `/^const\s*\(/`. -/
def isConstParen (s : List Char) : Bool :=
  ("const".data).isPrefixOf s &&
    (match (s.drop 5).dropWhile isWsChar with
     | '(' :: _ => true
     | _ => false)

/-- `/^var\s*\(/`. -/
def isVarParen (s : List Char) : Bool :=
  ("var".data).isPrefixOf s &&
    (match (s.drop 3).dropWhile isWsChar with
     | '(' :: _ => true
     | _ => false)

/-- `/^KW\s+([A-Z]\w*)\b(.*)$/` for `KW` = `const` / `var`: name and rest. -/
def matchKwSingle (kw : List Char) (s : List Char) : Option (List Char × List Char) := do
  let r0 ← if kw.isPrefixOf s then some (s.drop kw.length) else none
  let r1 ← skipWs1 r0
  match r1 with
  | [] => none
  | c :: _ =>
    if isUpperAZ c then
      let (nm, rest) := wordRun r1
      some (nm, rest)
    else none

/-- Interface-method line: `/^([A-Za-z_]\w*)\s*\((.*)\)\s*(.*)$/`, yielding
(name, params text, return tail). `(.*)` is greedy, so the split is at the
last `)` of the line. -/
def methodLineMatch (s : List Char) : Option (List Char × List Char × List Char) :=
  match s with
  | [] => none
  | c :: _ =>
    if isWordStart c then
      let (nm, r1) := wordRun s
      match r1.dropWhile isWsChar with
      | '(' :: r2 =>
        let revAfter := r2.reverse.takeWhile (fun d => !(d = ')'))
        let revRest := r2.reverse.dropWhile (fun d => !(d = ')'))
        match revRest with
        | ')' :: revParams =>
          some (nm, revParams.reverse, (revAfter.reverse).dropWhile isWsChar)
        | _ => none
      | _ => none
    else none

/-- Struct-field line: `/^([A-Za-z_]\w*)\s+(.+)$/` (name, type text).
Backtracking case: if everything after the name is whitespace, `(.+)` keeps
the last whitespace char (dead at call sites, which pass trimmed lines). -/
def fieldLineMatch (s : List Char) : Option (List Char × List Char) :=
  match s with
  | [] => none
  | c :: _ =>
    if isWordStart c then
      let (nm, r1) := wordRun s
      match r1 with
      | [] => none
      | d :: _ =>
        if isWsChar d then
          match r1.dropWhile isWsChar with
          | [] =>
            match r1.reverse with
            | lastWs :: _ :: _ => some (nm, [lastWs])
            | _ => none
          | rest => some (nm, rest)
        else none
    else none

/-- Grouped-block member line: `/^([A-Za-z_]\w*)\b(.*)$/` (name, rest). -/
def memberLineMatch (s : List Char) : Option (List Char × List Char) :=
  match s with
  | [] => none
  | c :: _ =>
    if isWordStart c then
      let (nm, rest) := wordRun s
      some (nm, rest)
    else none

/-- Does the line contain `//` anywhere? -/
def hasLineComment : List Char → Bool
  | [] => false
  | '/' :: '/' :: _ => true
  | _ :: rest => hasLineComment rest

/-- Characters before the first `//`. -/
def takeToLineComment : List Char → List Char
  | [] => []
  | '/' :: '/' :: _ => []
  | c :: rest => c :: takeToLineComment rest

/-- `line.replace(/\s*\/\/.*$/, '')`: cut from the whitespace run preceding
the first `//` through the end of the line; no change when there is no `//`. -/
def stripTrailingLineComment (s : List Char) : List Char :=
  if hasLineComment s then dropTrailWs (takeToLineComment s) else s

/-- `/^[A-Z][A-Za-z0-9_]*$/` as a whole-line test. -/
def isBareCapIdent (s : List Char) : Bool :=
  match s with
  | [] => false
  | c :: rest => isUpperAZ c && rest.all isWordChar

/-- `/^import\s+"([^"]+)"/` — the quoted import path. -/
def matchImportSingle (s : List Char) : Option (List Char) := do
  let r0 ← if ("import".data).isPrefixOf s then some (s.drop 6) else none
  let r1 ← skipWs1 r0
  match r1 with
  | '"' :: r2 =>
    let p := r2.takeWhile (fun c => !(c = '"'))
    match p, r2.dropWhile (fun c => !(c = '"')) with
    | _ :: _, '"' :: _ => some p
    | _, _ => none
  | _ => none

/-- `/^import\s*\(/`. -/
def isImportParen (s : List Char) : Bool :=
  ("import".data).isPrefixOf s &&
    (match (s.drop 6).dropWhile isWsChar with
     | '(' :: _ => true
     | _ => false)

/-- `/^(?:[A-Za-z_]\w*\s+)?"([^"]+)"/` — inner line of an import block. -/
def matchImportBlockItem (s : List Char) : Option (List Char) :=
  match s with
  | '"' :: r =>
    let p := r.takeWhile (fun c => !(c = '"'))
    (match p, r.dropWhile (fun c => !(c = '"')) with
     | _ :: _, '"' :: _ => some p
     | _, _ => none)
  | c :: _ =>
    if isWordStart c then
      let (_, r1) := wordRun s
      match skipWs1 r1 with
      | some r2 =>
        (match r2 with
         | '"' :: r3 =>
           let p := r3.takeWhile (fun c => !(c = '"'))
           (match p, r3.dropWhile (fun c => !(c = '"')) with
            | _ :: _, '"' :: _ => some p
            | _, _ => none)
         | _ => none)
      | none => none
    else none
  | [] => none

/-- The seven declaration kinds of `ExtractedKind`. -/
inductive ExtractedKind where
  | interface
  | struct
  | type
  | function
  | method
  | const
  | «variable»
deriving DecidableEq

/-- `PropertyInfo` (member of an interface or struct). -/
structure PropertyInfo where
  name : List Char
  type : List Char
  optionalFlag : Bool
  readonlyFlag : Bool
  isMethod : Bool
  isCallSignature : Bool
  isIndexSignature : Bool
  parameters : List (List Char)
  returnType : Option (List Char)
deriving DecidableEq

/-- `ExtractedType` — one recognized declaration. TS optional list fields
(`properties`, `methods`) are modelled as lists, absent = `[]`. -/
structure ExtractedType where
  name : List Char
  kind : ExtractedKind
  exported : Bool
  file : List Char
  module : List Char
  signature : List Char
  fullSignature : Option (List Char)
  properties : List PropertyInfo
  methods : List PropertyInfo
  docs : Option (List Char)
  value : Option (List Char)
  lineNumber : Option Nat
deriving DecidableEq

/-- Result of `captureBracedBlock` / `captureParenBlock`. -/
structure CapResult where
  text : List Char
  endLine : Nat
deriving DecidableEq

/-- One member parsed out of a grouped `const (`/`var (` block. -/
structure BlockMember where
  name : List Char
  signature : List Char
  value : Option (List Char)
  lineNumber : Nat
deriving DecidableEq

/-- Net delimiter balance of one line. -/
def lineDelta (openC closeC : Char) (l : List Char) : Int :=
  (l.countP (fun c => c = openC) : Int) - (l.countP (fun c => c = closeC) : Int)

/-- Balanced-block capture loop over the remaining lines. `idx` is the index
of the head of `rem` in the whole file; `lastIdx` is `lines.length - 1`,
returned when the block never closes (the call sites guarantee
`startLine < lines.length`, so the JS `-1` case cannot arise). -/
def capGo (openC closeC : Char) (lastIdx : Nat) :
    List (List Char) → Nat → Int → Bool → List (List Char) → List (List Char) × Nat
  | [], _, _, _, chunk => (chunk, lastIdx)
  | l :: rest, idx, bal, started, chunk =>
    let chunk2 := chunk ++ [l]
    let bal2 := bal + lineDelta openC closeC l
    let started2 := started || l.any (fun c => c = openC)
    if started2 && bal2 = 0 then (chunk2, idx)
    else capGo openC closeC lastIdx rest (idx + 1) bal2 started2 chunk2

/-- The lines captured by `captureBracedBlock` (before joining). -/
def capChunk (openC closeC : Char) (lines : List (List Char)) (startLine : Nat) :
    List (List Char) × Nat :=
  capGo openC closeC (lines.length - 1) (lines.drop startLine) startLine 0 false []

/-- `captureBracedBlock(lines, startLine)`. -/
def captureBracedBlock (lines : List (List Char)) (startLine : Nat) : CapResult :=
  let p := capChunk '\x7b' '\x7d' lines startLine
  ⟨joinNl p.1, p.2⟩

/-- `captureParenBlock(lines, startLine)`. -/
def captureParenBlock (lines : List (List Char)) (startLine : Nat) : CapResult :=
  let p := capChunk '(' ')' lines startLine
  ⟨joinNl p.1, p.2⟩

/-- `captureFunctionSignature` inner loop; `off` is `index - startLine`. -/
def capFnGo : List (List Char) → Nat → Int → List (List Char) → List (List Char)
  | [], _, _, chunk => chunk
  | l :: rest, off, bal, chunk =>
    let chunk2 := chunk ++ [jsTrim l]
    let bal2 := bal + lineDelta '(' ')' l
    if l.any (fun c => c = '\x7b') then chunk2
    else if bal2 ≤ 0 && (match (jsTrim l).reverse with
                         | ')' :: _ => true
                         | _ => false) then chunk2
    else if 12 < off then chunk2
    else capFnGo rest (off + 1) bal2 chunk2

/-- `captureFunctionSignature(lines, startLine)`. -/
def captureFunctionSignature (lines : List (List Char)) (startLine : Nat) : List Char :=
  joinSp (capFnGo (lines.drop startLine) 0 0 [])

/-- `parseInterfaceMethods(blockText)`: interior lines matched as
`name(parameters) returnTail`. -/
def parseInterfaceMethods (blockText : List Char) : List PropertyInfo :=
  let ls := splitLines blockText
  ((ls.drop 1).dropLast).filterMap fun l =>
    let t := jsTrim l
    if t.isEmpty then none
    else if ("//".data).isPrefixOf t then none
    else
      match methodLineMatch t with
      | none => none
      | some (nm, ps, ret) =>
        some
          { name := nm
            type := if ret.isEmpty then ("void".data) else ret
            optionalFlag := false
            readonlyFlag := false
            isMethod := true
            isCallSignature := false
            isIndexSignature := false
            parameters := ((splitOnChar ',' ps).map jsTrim).filter (fun p => !p.isEmpty)
            returnType := some (if ret.isEmpty then ("void".data) else ret) }

/-- `parseStructFields(blockText)`. -/
def parseStructFields (blockText : List Char) : List PropertyInfo :=
  let ls := splitLines blockText
  ((ls.drop 1).dropLast).filterMap fun l =>
    let cleaned := jsTrim (stripTrailingLineComment l)
    if cleaned.isEmpty then none
    else
      match fieldLineMatch cleaned with
      | none => none
      | some (nm, ty) =>
        some
          { name := nm
            type := jsTrim ty
            optionalFlag := false
            readonlyFlag := false
            isMethod := false
            isCallSignature := false
            isIndexSignature := false
            parameters := []
            returnType := none }

/-- `parseConstVarBlockMembers(blockText)`: interior lines (indices
`1 .. length-2` of the block text) matched as `name remainder`; note the
member's `lineNumber` is `index + 1` with `index` relative to the block. -/
def parseConstVarBlockMembers (blockText : List Char) : List BlockMember :=
  let ls := splitLines blockText
  ls.enum.filterMap fun p =>
    if p.1 = 0 || ls.length ≤ p.1 + 1 then none
    else
      let line := jsTrim (stripTrailingLineComment p.2)
      if line.isEmpty then none
      else
        match memberLineMatch line with
        | none => none
        | some (nm, rest) =>
          some
            { name := nm
              signature := line
              value := (fun t => if t.isEmpty then none else some t) (jsTrim rest)
              lineNumber := p.1 + 1 }

/-- `firstLine(text)`. -/
def firstLineOf (text : List Char) : List Char :=
  jsTrim ((splitLines text).headD [])

/-- `t.replace(/^\/\/\s?/, '')`. -/
def stripSlashSlash (t : List Char) : List Char :=
  let r := t.drop 2
  match r with
  | c :: rest => if isWsChar c then rest else r
  | [] => []

/-- `t.replace(/^\/\*+\s?/, '').replace(/^\*\s?/, '').replace(/\*\/$/, '').trim()`. -/
def stripBlockMarkers (t : List Char) : List Char :=
  let s1 :=
    match t with
    | '/' :: '*' :: r =>
      let r2 := r.dropWhile (fun c => c = '*')
      (match r2 with
       | c :: rest => if isWsChar c then rest else r2
       | [] => [])
    | _ => t
  let s2 :=
    match s1 with
    | '*' :: r =>
      (match r with
       | c :: rest => if isWsChar c then rest else r
       | [] => [])
    | _ => s1
  let s3 :=
    match s2.reverse with
    | '/' :: '*' :: r => r.reverse
    | _ => s2
  jsTrim s3

/-- The block-comment test of `extractDocAbove`:
`trimmed.endsWith('*/') || trimmed.startsWith('/*') || trimmed.startsWith('*')`. -/
def isBlockCommentLine (t : List Char) : Bool :=
  (match t.reverse with
   | '/' :: '*' :: _ => true
   | _ => false) ||
  ("/*".data).isPrefixOf t ||
  (match t with
   | '*' :: _ => true
   | _ => false)

/-- `extractDocAbove` backward walk; the argument `n` encodes cursor `n - 1`,
so `docGo lines i []` starts at line `i - 1` as the code does. -/
def docGo (lines : List (List Char)) : Nat → List (List Char) → List (List Char)
  | 0, ds => ds
  | n + 1, ds =>
    let raw := lines.getD n []
    let t := jsTrim raw
    if t.isEmpty then
      if ds.isEmpty then docGo lines n ds else ds
    else if ("//".data).isPrefixOf t then
      docGo lines n (stripSlashSlash t :: ds)
    else if isBlockCommentLine t then
      docGo lines n (stripBlockMarkers t :: ds)
    else ds

/-- `extractDocAbove(lines, lineIndex)`. -/
def extractDocAbove (lines : List (List Char)) (lineIndex : Nat) : Option (List Char) :=
  let text := jsTrim (joinSp (docGo lines lineIndex []))
  if text.isEmpty then none else some text

/-- First path segment, or `root`: `getModuleName` (paths are taken relative
to the scanned root, forward slashes). -/
def getModuleName (relPath : List Char) : List Char :=
  let parts := splitOnChar '/' relPath
  if 1 < parts.length then parts.headD [] else ("root".data)

/-- `[A-Z]` head test used by the grouped-block member export filter. -/
def isUpperStart (s : List Char) : Bool :=
  match s with
  | [] => false
  | c :: _ => isUpperAZ c

/-- `t.trim() || undefined`. -/
def optOfTrim (s : List Char) : Option (List Char) :=
  let t := jsTrim s
  if t.isEmpty then none else some t

/-- Does the trimmed line disqualify the alias branch
(`line.includes('interface{') || line.includes('struct{')`)? -/
def aliasExcluded (line : List Char) : Bool :=
  isSubstr ("interface\x7b".data) line || isSubstr ("struct\x7b".data) line

/-- The body of `extractFromContent`'s `for` loop, written as a fueled
recursion; `index` only moves forward (by one, or past a captured block), so
`lines.length + 1` fuel always suffices. Branches appear in source order:
interface, struct, alias, method, function, grouped const, grouped var,
single const, single var. -/
def scanGo (relFile modName : List Char) (lines : List (List Char)) :
    Nat → Nat → List ExtractedType
  | 0, _ => []
  | fuel + 1, index =>
    if h : index < lines.length then
      let line := jsTrim (lines.get ⟨index, h⟩)
      if line.isEmpty then scanGo relFile modName lines fuel (index + 1)
      else
        let docs := extractDocAbove lines index
        match matchTypeBlock ("interface".data) line with
        | some nm =>
          let block := captureBracedBlock lines index
          { name := nm, kind := .interface, exported := true, file := relFile,
            module := modName, signature := firstLineOf block.text,
            fullSignature := some block.text, properties := [],
            methods := parseInterfaceMethods block.text, docs := docs,
            value := none, lineNumber := some (index + 1) }
            :: scanGo relFile modName lines fuel (block.endLine + 1)
        | none =>
        match matchTypeBlock ("struct".data) line with
        | some nm =>
          let block := captureBracedBlock lines index
          { name := nm, kind := .struct, exported := true, file := relFile,
            module := modName, signature := firstLineOf block.text,
            fullSignature := some block.text,
            properties := parseStructFields block.text, methods := [],
            docs := docs, value := none, lineNumber := some (index + 1) }
            :: scanGo relFile modName lines fuel (block.endLine + 1)
        | none =>
        match (if aliasExcluded line then none else matchTypeAlias line) with
        | some (nm, rhs) =>
          { name := nm, kind := .type, exported := true, file := relFile,
            module := modName, signature := line, fullSignature := none,
            properties := [], methods := [], docs := docs,
            value := some (jsTrim rhs), lineNumber := some (index + 1) }
            :: scanGo relFile modName lines fuel (index + 1)
        | none =>
        match matchMethodDecl line with
        | some nm =>
          { name := nm, kind := .method, exported := true, file := relFile,
            module := modName,
            signature := captureFunctionSignature lines index,
            fullSignature := none, properties := [], methods := [],
            docs := docs, value := none, lineNumber := some (index + 1) }
            :: scanGo relFile modName lines fuel (index + 1)
        | none =>
        match matchFuncDecl line with
        | some nm =>
          { name := nm, kind := .function, exported := true, file := relFile,
            module := modName,
            signature := captureFunctionSignature lines index,
            fullSignature := none, properties := [], methods := [],
            docs := docs, value := none, lineNumber := some (index + 1) }
            :: scanGo relFile modName lines fuel (index + 1)
        | none =>
        if isConstParen line then
          let block := captureParenBlock lines index
          ((parseConstVarBlockMembers block.text).filterMap fun mem =>
            if isUpperStart mem.name then
              some { name := mem.name, kind := ExtractedKind.const,
                     exported := true, file := relFile, module := modName,
                     signature := mem.signature, fullSignature := none,
                     properties := [], methods := [], docs := docs,
                     value := mem.value, lineNumber := some mem.lineNumber }
            else none)
            ++ scanGo relFile modName lines fuel (block.endLine + 1)
        else if isVarParen line then
          let block := captureParenBlock lines index
          ((parseConstVarBlockMembers block.text).filterMap fun mem =>
            if isUpperStart mem.name then
              some { name := mem.name, kind := ExtractedKind.«variable»,
                     exported := true, file := relFile, module := modName,
                     signature := mem.signature, fullSignature := none,
                     properties := [], methods := [], docs := docs,
                     value := mem.value, lineNumber := some mem.lineNumber }
            else none)
            ++ scanGo relFile modName lines fuel (block.endLine + 1)
        else
        match matchKwSingle ("const".data) line with
        | some (nm, rest) =>
          { name := nm, kind := .const, exported := true, file := relFile,
            module := modName, signature := line, fullSignature := none,
            properties := [], methods := [], docs := docs,
            value := optOfTrim rest, lineNumber := some (index + 1) }
            :: scanGo relFile modName lines fuel (index + 1)
        | none =>
        match matchKwSingle ("var".data) line with
        | some (nm, rest) =>
          { name := nm, kind := ExtractedKind.«variable», exported := true,
            file := relFile, module := modName, signature := line,
            fullSignature := none, properties := [], methods := [],
            docs := docs, value := optOfTrim rest,
            lineNumber := some (index + 1) }
            :: scanGo relFile modName lines fuel (index + 1)
        | none => scanGo relFile modName lines fuel (index + 1)
    else []

/-- `extractFromContent(filePath, content)`; the path argument is the
root-relative path, so it is both the declaration's `file` field and the
input of `getModuleName`. -/
def extractFromContent (relPath content : List Char) : List ExtractedType :=
  let lines := splitLines content
  scanGo relPath (getModuleName relPath) lines (lines.length + 1) 0

/-- `extractAllTypes` over an explicit tree: the list of
(root-relative path, content) pairs stands for the collected files. -/
def extractAllTypes (files : List (List Char × List Char)) : List ExtractedType :=
  files.flatMap fun f => extractFromContent f.1 f.2

/-- `RankedTypeResult`. -/
structure RankedTypeResult where
  type : ExtractedType
  score : Nat
  matchedIn : List (List Char)
deriving DecidableEq

/-- Search field weights of `searchByContext` (source literals 25, 12, 6, 5,
4, 5, 4). -/
def nameExactWeight : Nat := 25

def nameSubWeight : Nat := 12

def signatureWeight : Nat := 6

def docsWeight : Nat := 5

def fileWeight : Nat := 4

def moduleWeight : Nat := 5

def kindWeight : Nat := 4

/-- Lowercased kind string of a declaration. -/
def kindStr : ExtractedKind → List Char
  | .interface => ("interface".data)
  | .struct => ("struct".data)
  | .type => ("type".data)
  | .function => ("function".data)
  | .method => ("method".data)
  | .const => ("const".data)
  | .«variable» => ("variable".data)

/-- Signal labels pushed into `matchedIn`. -/
def lblNameExact : List Char := ("name-exact".data)

def lblName : List Char := ("name".data)

def lblSignature : List Char := ("signature".data)

def lblDocs : List Char := ("docs".data)

def lblFile : List Char := ("file".data)

def lblModule : List Char := ("module".data)

def lblKind : List Char := ("kind".data)

/-- Score contributed by one query term against one declaration: the body of
the `for (const term of terms)` loop. An exact name match adds 25 and
`continue`s; otherwise each containing field adds its weight. -/
def termScore (t : ExtractedType) (term : List Char) : Nat :=
  if jsToLower t.name = term then nameExactWeight
  else
    (if isSubstr term (jsToLower t.name) then nameSubWeight else 0) +
    (if isSubstr term (jsToLower t.signature) then signatureWeight else 0) +
    (if isSubstr term (jsToLower (t.docs.getD [])) then docsWeight else 0) +
    (if isSubstr term (jsToLower t.file) then fileWeight else 0) +
    (if isSubstr term (jsToLower t.module) then moduleWeight else 0) +
    (if isSubstr term (kindStr t.kind) then kindWeight else 0)

/-- Labels pushed for one query term, in source push order. -/
def termLabels (t : ExtractedType) (term : List Char) : List (List Char) :=
  if jsToLower t.name = term then [lblNameExact]
  else
    (if isSubstr term (jsToLower t.name) then [lblName] else []) ++
    (if isSubstr term (jsToLower t.signature) then [lblSignature] else []) ++
    (if isSubstr term (jsToLower (t.docs.getD [])) then [lblDocs] else []) ++
    (if isSubstr term (jsToLower t.file) then [lblFile] else []) ++
    (if isSubstr term (jsToLower t.module) then [lblModule] else []) ++
    (if isSubstr term (kindStr t.kind) then [lblKind] else [])

/-- Accumulated (score, matchedIn) over all terms. -/
def scoreType (terms : List (List Char)) (t : ExtractedType) : Nat × List (List Char) :=
  terms.foldl (fun acc term => (acc.1 + termScore t term, acc.2 ++ termLabels t term)) (0, [])

/-- `query.toLowerCase().trim().split(/\s+/).filter(Boolean)`. -/
def termsOf (query : List Char) : List (List Char) :=
  splitNonWs (jsTrim (jsToLower query))

/-- The comparator of the ranking sort: score descending, then name
ascending. -/
def rankLe (a b : RankedTypeResult) : Bool :=
  keyLe (fun r => r.score) (fun r => r.type.name) a b

/-- Module/kind pre-filters of `searchByContext` (`filters?.module` /
`filters?.kind`; a present-but-empty module string is falsy in JS and
disables the filter). -/
def applyFilters (fModule : Option (List Char)) (fKind : Option ExtractedKind)
    (types : List ExtractedType) : List ExtractedType :=
  let t1 :=
    match fModule with
    | some m =>
      if m.isEmpty then types
      else types.filter fun t => jsToLower t.module = jsToLower m
    | none => types
  match fKind with
  | some k => t1.filter fun t => t.kind = k
  | none => t1

/-- The scored, uneliminated candidates in input order (the `ranked` array
before sorting). -/
def rankCandidates (terms : List (List Char)) (types : List ExtractedType) :
    List RankedTypeResult :=
  types.filterMap fun t =>
    let p := scoreType terms t
    if terms.isEmpty || 0 < p.1 then
      some { type := t, score := p.1, matchedIn := dedupFirst p.2 }
    else none

/-- `searchByContext(query, limit, filters)` over an explicit candidate
list. -/
def searchByContext (types : List ExtractedType) (query : List Char)
    (limit : Nat) (fModule : Option (List Char)) (fKind : Option ExtractedKind) :
    List RankedTypeResult :=
  let terms := termsOf query
  let ranked := rankCandidates terms (applyFilters fModule fKind types)
  (sortStable rankLe ranked).take (Nat.max 1 limit)

/-- `ModuleSummary` (the per-kind counts are kept as a function of the kind;
`byKind` is a fixed 7-key record in the source). -/
structure ModuleSummary where
  module : List Char
  total : Nat
  interfaces : Nat
  structs : Nat
  typeAliases : Nat
  functions : Nat
  methods : Nat
  consts : Nat
  varDecls : Nat
  files : List (List Char)
  highlights : List ExtractedType
deriving DecidableEq

/-- `getTypesFromModule(moduleName)`. -/
def getTypesFromModule (types : List ExtractedType) (moduleName : List Char) :
    List ExtractedType :=
  types.filter fun t => jsToLower t.module = jsToLower moduleName

/-- `highlightScore(type)`. -/
def highlightScore (t : ExtractedType) : Nat :=
  (if t.docs.isSome then 2 else 0) +
  (if t.kind = .function || t.kind = .method then 4 else 0) +
  (if t.kind = .interface || t.kind = .struct then 3 else 0) +
  (if t.name.length ≤ 24 then 1 else 0)

/-- The comparator of the highlight sort: interest score descending, then
name ascending. -/
def hlLe (a b : ExtractedType) : Bool :=
  keyLe highlightScore (fun t => t.name) a b

/-- Plain ascending string comparator (`(a, b) => a.localeCompare(b)`). -/
def strLe (a b : List Char) : Bool := ! strLtB b a

/-- `summarizeModule(moduleName, highlightCount)`. -/
def summarizeModule (types : List ExtractedType) (moduleName : List Char)
    (highlightCount : Nat) : ModuleSummary :=
  let ts := getTypesFromModule types moduleName
  { module := moduleName
    total := ts.length
    interfaces := ts.countP fun t => t.kind = .interface
    structs := ts.countP fun t => t.kind = .struct
    typeAliases := ts.countP fun t => t.kind = .type
    functions := ts.countP fun t => t.kind = .function
    methods := ts.countP fun t => t.kind = .method
    consts := ts.countP fun t => t.kind = .const
    varDecls := ts.countP fun t => t.kind = ExtractedKind.«variable»
    files := sortStable strLe (dedupFirst (ts.map fun t => t.file))
    highlights := (sortStable hlLe ts).take (Nat.max 1 highlightCount) }

/-- `searchType(name)`: exact match first, case-insensitive fallback. -/
def searchType (types : List ExtractedType) (name : List Char) :
    Option ExtractedType :=
  match types.find? (fun t => t.name = name) with
  | some t => some t
  | none => types.find? fun t => jsToLower t.name = jsToLower name

/-- `HierarchyResult`. -/
structure HierarchyResult where
  type : ExtractedType
  parents : List (List Char)
  children : List (List Char)
deriving DecidableEq

/-- The embedded-parents computation of `getTypeHierarchy`: the lowercased
full signature is split into lines, trimmed, and filtered with
`/^[A-Z][A-Za-z0-9_]*$/` (for contract/record/alias kinds only). -/
def hierParents (target : ExtractedType) : List (List Char) :=
  let fullSignature := jsToLower (target.fullSignature.getD target.signature)
  if target.kind = .interface || target.kind = .struct || target.kind = .type then
    ((splitLines fullSignature).map jsTrim).filter isBareCapIdent
  else []

/-- The children computation of `getTypeHierarchy`. -/
def hierChildren (all : List ExtractedType) (target : ExtractedType) :
    List (List Char) :=
  (all.filter fun cand =>
    !(cand.name = target.name) &&
      isSubstr (jsToLower target.name)
        (jsToLower (cand.fullSignature.getD cand.signature))).map
    fun cand => cand.name

/-- `getTypeHierarchy(name)` over an explicit index. -/
def getTypeHierarchy (all : List ExtractedType) (name : List Char) :
    Option HierarchyResult :=
  match searchType all name with
  | none => none
  | some target =>
    some
      { type := target
        parents := sortStable strLe (dedupFirst (hierParents target))
        children := sortStable strLe (dedupFirst (hierChildren all target)) }

/-- Inner loop of `extractImports` for a parenthesized import block: collect
quoted paths until a line that trims to `)`; returns the collected paths and
the index of the closing line when found (the outer loop resumes after it;
when absent, the outer loop resumes at the line after the `import (`). -/
def importInnerGo : List (List Char) → Nat → List (List Char) × Option Nat
  | [], _ => ([], none)
  | l :: rest, j =>
    let item := jsTrim l
    if item = [')'] then ([], some j)
    else
      let tailRes := importInnerGo rest (j + 1)
      ((match matchImportBlockItem item with
        | some p => [p]
        | none => []) ++ tailRes.1, tailRes.2)

/-- Fueled outer loop of `extractImports`. -/
def importsGo (lines : List (List Char)) : Nat → Nat → List (List Char)
  | 0, _ => []
  | fuel + 1, idx =>
    if idx < lines.length then
      let line := jsTrim (lines.getD idx [])
      match matchImportSingle line with
      | some p => p :: importsGo lines fuel (idx + 1)
      | none =>
        if isImportParen line then
          let inner := importInnerGo (lines.drop (idx + 1)) (idx + 1)
          inner.1 ++ importsGo lines fuel
            (match inner.2 with
             | some j => j + 1
             | none => idx + 1)
        else importsGo lines fuel (idx + 1)
    else []

/-- `extractImports(content)`. -/
def extractImports (content : List Char) : List (List Char) :=
  let lines := splitLines content
  importsGo lines (lines.length + 1) 0

/-- `DependencyInfo`. -/
structure DependencyInfo where
  module : List Char
  imports : List (List Char)
  exports : List (List Char)
  reExportsFrom : List (List Char)
deriving DecidableEq

/-- The `byModule` map: an insertion-ordered association list from module
name to (import set, export set), both insertion-ordered duplicate-free
lists. -/
def DepMap : Type := List (List Char × List (List Char) × List (List Char))

/-- Is the module already a key? -/
def depHas (m : List (List Char × List (List Char) × List (List Char)))
    (k : List Char) : Bool :=
  m.any fun e => e.1 = k

/-- `entry.imports.add(v)` on key `k`. -/
def depAddImport (m : List (List Char × List (List Char) × List (List Char)))
    (k v : List Char) : List (List Char × List (List Char) × List (List Char)) :=
  m.map fun e => if e.1 = k then (e.1, setAdd e.2.1 v, e.2.2) else e

/-- `entry.exports.add(v)` on key `k` (a missing key is a no-op, matching the
`if (!entry) continue` in the source). -/
def depAddExport (m : List (List Char × List (List Char) × List (List Char)))
    (k v : List Char) : List (List Char × List (List Char) × List (List Char)) :=
  m.map fun e => if e.1 = k then (e.1, e.2.1, setAdd e.2.2 v) else e

/-- First pass of `analyzeDependencies`: one entry per module in file order,
imports accumulated per file. -/
def depPhase1 (files : List (List Char × List Char)) :
    List (List Char × List (List Char) × List (List Char)) :=
  files.foldl
    (fun m f =>
      let k := getModuleName f.1
      let m1 := if depHas m k then m else m ++ [(k, [], [])]
      (extractImports f.2).foldl (fun mm v => depAddImport mm k v) m1)
    []

/-- Second pass: every indexed declaration's name is added to its module's
export set. -/
def depPhase2 (m : List (List Char × List (List Char) × List (List Char)))
    (types : List ExtractedType) :
    List (List Char × List (List Char) × List (List Char)) :=
  types.foldl (fun mm t => depAddExport mm t.module t.name) m

/-- Ascending comparator on the `module` field. -/
def depLe (a b : DependencyInfo) : Bool := ! strLtB b.module a.module

/-- `analyzeDependencies()` over an explicit tree. -/
def analyzeDependencies (files : List (List Char × List Char)) :
    List DependencyInfo :=
  let m := depPhase2 (depPhase1 files) (extractAllTypes files)
  sortStable depLe
    (m.map fun e =>
      { module := e.1
        imports := sortStable strLe e.2.1
        exports := sortStable strLe e.2.2
        reExportsFrom := [] })

theorem jsCharToLower_not_upper (c : Char) : isUpperAZ (jsCharToLower c) = false := by
  unfold jsCharToLower
  split
  · rename_i h
    unfold isUpperAZ at h ⊢
    simp only [Bool.and_eq_true, decide_eq_true_eq] at h
    have h1 : 65 ≤ c.toNat := h.1
    have h2 : c.toNat ≤ 90 := h.2
    have hv : (c.toNat + 32).isValidChar := Or.inl (by omega)
    have ht : (Char.ofNat (c.toNat + 32)).toNat = c.toNat + 32 := by
      rw [Char.ofNat, dif_pos hv]
      simp [Char.ofNatAux, Char.toNat, UInt32.toNat, BitVec.toNat_ofNatLt]
    apply Bool.and_eq_false_iff.mpr
    right
    simp only [decide_eq_false_iff_not]
    intro hle
    have h3 : (Char.ofNat (c.toNat + 32)).toNat ≤ 90 := hle
    omega
  · rename_i h
    simpa using h

theorem mem_jsToLower_not_upper (s : List Char) (c : Char) (hc : c ∈ jsToLower s) :
    isUpperAZ c = false := by
  unfold jsToLower at hc
  obtain ⟨d, _, rfl⟩ := List.mem_map.mp hc
  exact jsCharToLower_not_upper d

theorem splitLinesGo_chars (acc s : List Char) :
    ∀ l ∈ splitLinesGo acc s, ∀ c ∈ l, c ∈ acc ∨ c ∈ s := by
  induction acc, s using splitLinesGo.induct with
  | case1 acc =>
    intro l hl c hc
    simp only [splitLinesGo, List.mem_singleton] at hl
    subst hl
    exact Or.inl (by simpa using hc)
  | case2 acc rest ih =>
    intro l hl c hc
    simp only [splitLinesGo, List.mem_cons] at hl
    rcases hl with rfl | hl
    · exact Or.inl (by simpa using hc)
    · rcases ih l hl c hc with h | h
      · exact absurd h (List.not_mem_nil c)
      · exact Or.inr (List.mem_cons_of_mem _ h)
  | case3 acc rest ih =>
    intro l hl c hc
    simp only [splitLinesGo, List.mem_cons] at hl
    rcases hl with rfl | hl
    · exact Or.inl (by simpa using hc)
    · rcases ih l hl c hc with h | h
      · exact absurd h (List.not_mem_nil c)
      · exact Or.inr (List.mem_cons_of_mem _ (List.mem_cons_of_mem _ h))
  | case4 acc d rest hne1 hne2 ih =>
    intro l hl c hc
    rw [splitLinesGo] at hl
    · rcases ih l hl c hc with h | h
      · rcases List.mem_cons.mp h with rfl | h2
        · exact Or.inr (List.mem_cons_self c rest)
        · exact Or.inl h2
      · exact Or.inr (List.mem_cons_of_mem _ h)
    · exact hne1
    · exact hne2

theorem mem_dropTrailWs {s : List Char} {c : Char} (h : c ∈ dropTrailWs s) : c ∈ s := by
  unfold dropTrailWs at h
  have h2 := (List.mem_reverse).mp h
  have h3 := (@List.dropWhile_sublist _ s.reverse isWsChar).subset h2
  exact (List.mem_reverse).mp h3

theorem mem_jsTrim {s : List Char} {c : Char} (h : c ∈ jsTrim s) : c ∈ s := by
  unfold jsTrim at h
  exact (@List.dropWhile_sublist _ s isWsChar).subset (mem_dropTrailWs h)

theorem isBareCapIdent_head_upper {s : List Char} (h : isBareCapIdent s = true) :
    ∃ c ∈ s, isUpperAZ c = true := by
  match s, h with
  | c :: rest, h =>
    refine ⟨c, List.mem_cons_self c rest, ?_⟩
    unfold isBareCapIdent at h
    exact ((Bool.and_eq_true _ _).mp h).1

/-- C1: the claim says the parents list of `relationsOf`/`getTypeHierarchy`
holds exactly the bare-capitalized-identifier lines of the captured block and
is non-empty whenever such a line exists. In the code the block text is
lowercased *before* the `/^[A-Z][A-Za-z0-9_]*$/` filter, so the filter can
never match: the parents list is empty for every declaration, contradicting
the claim's non-emptiness part. -/
theorem claim_C1_parents_always_empty (t : ExtractedType) : hierParents t = [] := by
  unfold hierParents
  split
  · apply List.filter_eq_nil_iff.mpr
    intro l hl
    intro hbare
    obtain ⟨c, hcl, hcup⟩ := isBareCapIdent_head_upper hbare
    obtain ⟨l0, hl0, rfl⟩ := List.mem_map.mp hl
    have hc0 : c ∈ l0 := mem_jsTrim hcl
    have := splitLinesGo_chars [] _ l0 hl0 c hc0
    rcases this with h | h
    · exact absurd h (List.not_mem_nil c)
    · rw [mem_jsToLower_not_upper _ c h] at hcup
      exact Bool.false_ne_true hcup
  · rfl

/-- The C7 failing input: a grouped constant block whose opening line is file
line 3 and whose member `Foo` sits on file line 4. -/
def exC7 : List Char := ("package x\n\nconst (\n\tFoo = 1\n)".data)

/-- C7: the claim says every declaration's `lineNumber` is the 1-based line
number within the scanned file, including grouped const/var members. The code
computes grouped members' line numbers relative to the captured block text:
on `exC7` the member `Foo` is on file line 4 but is reported with
`lineNumber` 2 (its position inside the block). -/
theorem claim_C7_const_member_line_number :
    ((extractFromContent ("a.go".data) exC7).map fun d => (d.name, d.lineNumber))
        = [(("Foo".data), some 2)] ∧ (2 : Nat) ≠ 4 :=
  ⟨by decide, by decide⟩

theorem scoreType_accum (t : ExtractedType) :
    ∀ (terms : List (List Char)) (a : Nat) (b : List (List Char)),
      terms.foldl (fun acc term => (acc.1 + termScore t term, acc.2 ++ termLabels t term)) (a, b)
        = (a + (terms.map (termScore t)).sum, b ++ (terms.map (termLabels t)).flatten)
  | [], a, b => by simp
  | term :: rest, a, b => by
    simp only [List.foldl_cons, List.map_cons, List.sum_cons, List.flatten_cons]
    rw [scoreType_accum t rest (a + termScore t term) (b ++ termLabels t term)]
    simp [Nat.add_assoc, List.append_assoc]

/-- A declaration whose lowercased name equals the query term `foo` while its
signature also contains `foo`. -/
def tC2 : ExtractedType :=
  { name := ("Foo".data), kind := .struct, exported := true, file := ("a.go".data),
    module := ("root".data), signature := ("func foo()".data), fullSignature := none,
    properties := [], methods := [], docs := none, value := none, lineNumber := none }

/-- C2 counterexample: for the term `foo`, which exactly equals `tC2`'s
lowercased name and is also contained in its signature, the ranked entry has
score 25 and matched-signal set exactly `["name-exact"]`: the substring-name
label `name` is *not* recorded (and the signature weight is not added), so
the claim's "still recorded" part is false on the code. -/
theorem claim_C2_counterexample :
    ((searchByContext [tC2] ("foo".data) 20 none none).map fun r => (r.score, r.matchedIn))
        = [(25, [lblNameExact])] ∧
      ¬ lblName ∈ [lblNameExact] ∧
      isSubstr ("foo".data) (jsToLower tC2.signature) = true :=
  ⟨by decide, by decide, by decide⟩

/-- C2 amended: per-term scores and labels accumulate additively over the
query terms; for a term that is not an exact name match every matching
field's weight is added and its label pushed, but a term that exactly equals
the lowercased name contributes only the exact-match weight and only the
`name-exact` label — the other five fields are not even checked for that
term. -/
theorem claim_C2_exact_match_shortcircuits (t : ExtractedType) (terms : List (List Char)) :
    (scoreType terms t).1 = (terms.map (termScore t)).sum ∧
    (scoreType terms t).2 = (terms.map (termLabels t)).flatten ∧
    (∀ term, jsToLower t.name = term →
      termScore t term = nameExactWeight ∧ termLabels t term = [lblNameExact]) ∧
    (∀ term, jsToLower t.name ≠ term →
      termScore t term =
        (if isSubstr term (jsToLower t.name) then nameSubWeight else 0) +
        (if isSubstr term (jsToLower t.signature) then signatureWeight else 0) +
        (if isSubstr term (jsToLower (t.docs.getD [])) then docsWeight else 0) +
        (if isSubstr term (jsToLower t.file) then fileWeight else 0) +
        (if isSubstr term (jsToLower t.module) then moduleWeight else 0) +
        (if isSubstr term (kindStr t.kind) then kindWeight else 0) ∧
      termLabels t term =
        (if isSubstr term (jsToLower t.name) then [lblName] else []) ++
        (if isSubstr term (jsToLower t.signature) then [lblSignature] else []) ++
        (if isSubstr term (jsToLower (t.docs.getD [])) then [lblDocs] else []) ++
        (if isSubstr term (jsToLower t.file) then [lblFile] else []) ++
        (if isSubstr term (jsToLower t.module) then [lblModule] else []) ++
        (if isSubstr term (kindStr t.kind) then [lblKind] else [])) := by
  refine ⟨?_, ?_, ?_, ?_⟩
  · unfold scoreType
    rw [scoreType_accum t terms 0 []]
    simp
  · unfold scoreType
    rw [scoreType_accum t terms 0 []]
    simp
  · intro term h
    constructor
    · unfold termScore
      rw [if_pos h]
    · unfold termLabels
      rw [if_pos h]
  · intro term h
    constructor
    · unfold termScore
      rw [if_neg h]
    · unfold termLabels
      rw [if_neg h]

/-- C2 witness: the amended theorem applied to `tC2` and the exact term. -/
theorem claim_C2_exact_match_shortcircuits_witness :
    termScore tC2 ("foo".data) = nameExactWeight ∧
      termLabels tC2 ("foo".data) = [lblNameExact] :=
  (claim_C2_exact_match_shortcircuits tC2 [("foo".data)]).2.2.1 ("foo".data) (by decide)

theorem hlLe_total (a b : ExtractedType) : hlLe a b = true ∨ hlLe b a = true :=
  keyLe_total highlightScore (fun t => t.name) a b

theorem hlLe_trans (a b c : ExtractedType) (h1 : hlLe a b = true) (h2 : hlLe b c = true) :
    hlLe a c = true :=
  keyLe_trans highlightScore (fun t => t.name) a b c h1 h2

/-- A single declaration in module `m`, used for the C9 counterexample and
witness. -/
def tC9 : ExtractedType :=
  { name := ("Foo".data), kind := .struct, exported := true, file := ("a.go".data),
    module := ("m".data), signature := ("x".data), fullSignature := none,
    properties := [], methods := [], docs := none, value := none, lineNumber := none }

/-- C9 counterexample: with `highlightCount = 0` (a non-negative count) and a
one-declaration module, `summarizeModule` still returns one highlight because
of the `Math.max(1, highlightCount)` clamp — so the highlights list exceeds
`highlightCount`, refuting the claim's "never more than highlightCount"
part at this input. -/
theorem claim_C9_counterexample :
    (summarizeModule [tC9] ("m".data) 0).highlights.length = 1 ∧ ¬ (1 : Nat) ≤ 0 :=
  ⟨by decide, by decide⟩

/-- C9 amended: for every `highlightCount ≥ 1` (the clamp is the identity
there), the highlights are at most `highlightCount` declarations of the
module, ordered by the interest score (documented +2, function-or-method +4,
contract-or-record +3, name length ≤ 24 +1) descending with ties broken by
ascending name, and they dominate every module declaration left out. -/
theorem claim_C9_top_highlights (types : List ExtractedType) (m : List Char)
    (h : Nat) (hh : 1 ≤ h) :
    (summarizeModule types m h).highlights.length ≤ h ∧
    (summarizeModule types m h).highlights.Pairwise (fun a b => hlLe a b = true) ∧
    (∀ y ∈ getTypesFromModule types m, y ∉ (summarizeModule types m h).highlights →
      ∀ x ∈ (summarizeModule types m h).highlights, hlLe x y = true) := by
  have hmax : Nat.max 1 h = h := Nat.max_eq_right hh
  have hS := sortStable_pairwise hlLe_total hlLe_trans
    (getTypesFromModule types m)
  have hhl : (summarizeModule types m h).highlights
      = (sortStable hlLe (getTypesFromModule types m)).take h := by
    unfold summarizeModule
    simp [hmax]
  refine ⟨?_, ?_, ?_⟩
  · rw [hhl]
    simp
  · rw [hhl]
    exact List.Pairwise.take hS
  · intro y hy hynot x hx
    rw [hhl] at hynot hx
    set S := sortStable hlLe (getTypesFromModule types m) with hSdef
    have hymem : y ∈ S := (sortStable_perm hlLe _).symm.subset hy
    have hsplit : S.take h ++ S.drop h = S := List.take_append_drop h S
    have hydrop : y ∈ S.drop h := by
      rcases List.mem_append.mp (hsplit ▸ hymem) with h1 | h1
      · exact absurd h1 hynot
      · exact h1
    have hp : (S.take h ++ S.drop h).Pairwise (fun a b => hlLe a b = true) := by
      rw [hsplit]
      exact hS
    exact ((List.pairwise_append).mp hp).2.2 x hx y hydrop

/-- C9 witness: the amended theorem applied at `highlightCount = 1` to a
concrete one-declaration module. -/
theorem claim_C9_top_highlights_witness :
    (summarizeModule [tC9] ("m".data) 1).highlights.length ≤ 1 :=
  (claim_C9_top_highlights [tC9] ("m".data) 1 (by decide)).1

theorem docGo_blank_nil (lines : List (List Char)) (n : Nat)
    (h : jsTrim (lines.getD n []) = []) :
    docGo lines (n + 1) [] = docGo lines n [] := by
  have h' : jsTrim (lines[n]?.getD []) = [] := by simpa using h
  conv_lhs => unfold docGo
  simp [h']

theorem docGo_blank_stop (lines : List (List Char)) (n : Nat) (ds : List (List Char))
    (hds : ds ≠ []) (h : jsTrim (lines.getD n []) = []) :
    docGo lines (n + 1) ds = ds := by
  have h' : jsTrim (lines[n]?.getD []) = [] := by simpa using h
  conv_lhs => unfold docGo
  simp [h', hds]

theorem docGo_noncomment_stop (lines : List (List Char)) (n : Nat) (ds : List (List Char))
    (h1 : ¬ jsTrim (lines.getD n []) = [])
    (h2 : ("//".data).isPrefixOf (jsTrim (lines.getD n [])) = false)
    (h3 : isBlockCommentLine (jsTrim (lines.getD n [])) = false) :
    docGo lines (n + 1) ds = ds := by
  have h1' : ¬ jsTrim (lines[n]?.getD []) = [] := by simpa using h1
  have h2' : ("//".data).isPrefixOf (jsTrim (lines[n]?.getD [])) = false := by
    simpa using h2
  have h3' : isBlockCommentLine (jsTrim (lines[n]?.getD [])) = false := by
    simpa using h3
  conv_lhs => unfold docGo
  simp [h1', h2', h3', List.isEmpty_iff]

/-- The C5 counterexample lines: a comment, two consecutive blank lines, then
the declaration line. -/
def exC5 : List (List Char) := [("// doc".data), [], [], ("var X = 1".data)]

/-- C5 counterexample: with *two* consecutive blank lines between the
declaration (index 3) and the comment, the code still collects the comment
(`extractDocAbove` returns `doc`), whereas the claim says the second
consecutive blank line before the first comment terminates the walk with no
comments collected. -/
theorem claim_C5_counterexample :
    extractDocAbove exC5 3 = some ("doc".data) ∧
      jsTrim (exC5.getD 1 []) = [] ∧ jsTrim (exC5.getD 2 []) = [] :=
  ⟨by decide, by decide, by decide⟩

/-- C5 amended: walking backward from the declaration line, *any* number of
blank lines is skipped while no comment has been collected yet (not just
one); a blank line after comments have started, or any non-comment line,
terminates the walk with whatever was collected. -/
theorem claim_C5_blank_run_skipped :
    (∀ (lines : List (List Char)) (i m : Nat), m ≤ i →
      (∀ j, m ≤ j → j < i → jsTrim (lines.getD j []) = []) →
      docGo lines i [] = docGo lines m []) ∧
    (∀ (lines : List (List Char)) (n : Nat) (ds : List (List Char)), ds ≠ [] →
      jsTrim (lines.getD n []) = [] → docGo lines (n + 1) ds = ds) ∧
    (∀ (lines : List (List Char)) (n : Nat) (ds : List (List Char)),
      ¬ jsTrim (lines.getD n []) = [] →
      ("//".data).isPrefixOf (jsTrim (lines.getD n [])) = false →
      isBlockCommentLine (jsTrim (lines.getD n [])) = false →
      docGo lines (n + 1) ds = ds) := by
  refine ⟨?_, docGo_blank_stop, docGo_noncomment_stop⟩
  intro lines i
  induction i with
  | zero =>
    intro m hm _
    interval_cases m
    rfl
  | succ k ih =>
    intro m hm hblank
    rcases Nat.eq_or_lt_of_le hm with rfl | hlt
    · rfl
    · have hmk : m ≤ k := Nat.lt_succ_iff.mp hlt
      have hk : jsTrim (lines.getD k []) = [] := hblank k hmk (Nat.lt_succ_self k)
      rw [docGo_blank_nil lines k hk]
      exact ih m hmk fun j hj1 hj2 => hblank j hj1 (Nat.lt_succ_of_lt hj2)

/-- C5 witness: the amended theorem applied to the concrete line list —
the walk from index 3 skips both blank lines, and a blank line stops the
walk once a comment is held. -/
theorem claim_C5_blank_run_skipped_witness :
    docGo exC5 3 [] = docGo exC5 1 [] ∧ docGo exC5 2 [("d".data)] = [("d".data)] :=
  ⟨claim_C5_blank_run_skipped.1 exC5 3 1 (by omega)
      (fun j h1 h2 => by interval_cases j <;> decide),
   claim_C5_blank_run_skipped.2.1 exC5 1 [("d".data)] (by decide) (by decide)⟩

theorem rankLe_total (a b : RankedTypeResult) : rankLe a b = true ∨ rankLe b a = true := by
  unfold rankLe
  exact keyLe_total _ _ a b

theorem rankLe_trans (a b c : RankedTypeResult) (h1 : rankLe a b = true)
    (h2 : rankLe b c = true) : rankLe a c = true := by
  unfold rankLe at h1 h2 ⊢
  exact keyLe_trans _ _ a b c h1 h2

/-- C3 profile: the term matches the declaration only as a name substring. -/
def matchesOnlyNameSub (t : ExtractedType) (term : List Char) : Prop :=
  jsToLower t.name ≠ term ∧ isSubstr term (jsToLower t.name) = true ∧
  isSubstr term (jsToLower t.signature) = false ∧
  isSubstr term (jsToLower (t.docs.getD [])) = false ∧
  isSubstr term (jsToLower t.file) = false ∧
  isSubstr term (jsToLower t.module) = false ∧
  isSubstr term (kindStr t.kind) = false

/-- C3 profile: the term matches the declaration only as a file-path
substring. -/
def matchesOnlyFileSub (t : ExtractedType) (term : List Char) : Prop :=
  jsToLower t.name ≠ term ∧ isSubstr term (jsToLower t.name) = false ∧
  isSubstr term (jsToLower t.signature) = false ∧
  isSubstr term (jsToLower (t.docs.getD [])) = false ∧
  isSubstr term (jsToLower t.file) = true ∧
  isSubstr term (jsToLower t.module) = false ∧
  isSubstr term (kindStr t.kind) = false

theorem termScore_nameOnly (t : ExtractedType) (term : List Char)
    (h : matchesOnlyNameSub t term) :
    termScore t term = nameSubWeight ∧ termLabels t term = [lblName] := by
  obtain ⟨h1, h2, h3, h4, h5, h6, h7⟩ := h
  constructor
  · unfold termScore
    rw [if_neg h1]
    simp [h2, h3, h4, h5, h6, h7]
  · unfold termLabels
    rw [if_neg h1]
    simp [h2, h3, h4, h5, h6, h7]

theorem termScore_fileOnly (t : ExtractedType) (term : List Char)
    (h : matchesOnlyFileSub t term) :
    termScore t term = fileWeight ∧ termLabels t term = [lblFile] := by
  obtain ⟨h1, h2, h3, h4, h5, h6, h7⟩ := h
  constructor
  · unfold termScore
    rw [if_neg h1]
    simp [h2, h3, h4, h5, h6, h7]
  · unfold termLabels
    rw [if_neg h1]
    simp [h2, h3, h4, h5, h6, h7]

theorem scoreType_single (t : ExtractedType) (term : List Char) :
    scoreType [term] t = (termScore t term, termLabels t term) := by
  simp [scoreType]

theorem dedupFirst_single (x : List Char) : dedupFirst [x] = [x] := by
  simp [dedupFirst, setAdd]

theorem mem_rankCandidates_of_score (types : List ExtractedType)
    (term : List Char) (t : ExtractedType) (ht : t ∈ types)
    (w : Nat) (lbl : List Char)
    (hs : termScore t term = w) (hl : termLabels t term = [lbl]) (hw : 0 < w) :
    ({ type := t, score := w, matchedIn := [lbl] } : RankedTypeResult)
      ∈ rankCandidates [term] types := by
  apply List.mem_filterMap.mpr
  refine ⟨t, ht, ?_⟩
  simp only [scoreType_single, hs, hl]
  rw [if_pos (by simp [hw])]
  rw [dedupFirst_single]


/-- C3: the fixed weights respect the contract order
name-exact (25) > name-substring (12) > signature (6) > module (5) =
documentation (5) > file (4) = kind (4); and for a single-term query, a
declaration matching only as a name substring appears strictly earlier in
the returned ranking than one matching only as a file-path substring
(provided the limit does not cut the list). -/
theorem claim_C3_name_beats_file (types : List ExtractedType) (query term : List Char)
    (limit : Nat) (a b : ExtractedType) (ha : a ∈ types) (hb : b ∈ types)
    (hterm : termsOf query = [term])
    (hA : matchesOnlyNameSub a term) (hB : matchesOnlyFileSub b term)
    (hlim : types.length ≤ limit) :
    (nameSubWeight < nameExactWeight ∧ signatureWeight < nameSubWeight ∧
      moduleWeight < signatureWeight ∧ moduleWeight = docsWeight ∧
      fileWeight < docsWeight ∧ fileWeight = kindWeight) ∧
    ∃ i j : Nat, i < j ∧
      ((searchByContext types query limit none none).get? i).map (fun r => r.type)
        = some a ∧
      ((searchByContext types query limit none none).get? j).map (fun r => r.type)
        = some b := by
  refine ⟨by decide, ?_⟩
  have hsA := termScore_nameOnly a term hA
  have hsB := termScore_fileOnly b term hB
  set eA : RankedTypeResult := { type := a, score := nameSubWeight, matchedIn := [lblName] }
  set eB : RankedTypeResult := { type := b, score := fileWeight, matchedIn := [lblFile] }
  have hmemA : eA ∈ rankCandidates [term] types :=
    mem_rankCandidates_of_score types term a ha _ _ hsA.1 hsA.2 (by decide)
  have hmemB : eB ∈ rankCandidates [term] types :=
    mem_rankCandidates_of_score types term b hb _ _ hsB.1 hsB.2 (by decide)
  set ranked := rankCandidates [term] types with hranked
  set sorted := sortStable rankLe ranked with hsorted
  have hperm := sortStable_perm rankLe ranked
  have hpair : sorted.Pairwise (fun x y => rankLe x y = true) :=
    sortStable_pairwise rankLe_total rankLe_trans ranked
  have hfilters : applyFilters none none types = types := rfl
  have hout : searchByContext types query limit none none = sorted := by
    unfold searchByContext
    rw [hfilters, hterm]
    show (sortStable rankLe (rankCandidates [term] types)).take (Nat.max 1 limit) = sorted
    rw [← hranked, ← hsorted]
    apply List.take_of_length_le
    have h1 : ranked.length ≤ types.length := List.length_filterMap_le _ _
    have h2 : sorted.length = ranked.length := hperm.length_eq
    have h3 : limit ≤ Nat.max 1 limit := Nat.le_max_right 1 limit
    omega
  obtain ⟨iA, hgA⟩ := List.mem_iff_get.mp (hperm.symm.subset hmemA)
  obtain ⟨iB, hgB⟩ := List.mem_iff_get.mp (hperm.symm.subset hmemB)
  have hne : eA ≠ eB := by
    intro h
    have := congrArg RankedTypeResult.score h
    simp only [eA, eB] at this
    exact absurd this (by decide)
  have hij : (iA : Nat) < (iB : Nat) := by
    rcases Nat.lt_trichotomy (iA : Nat) (iB : Nat) with h | h | h
    · exact h
    · exfalso
      apply hne
      rw [← hgA, ← hgB]
      congr 1
      exact Fin.ext h
    · exfalso
      have hle : rankLe (sorted.get iB) (sorted.get iA) = true :=
        List.pairwise_iff_get.mp hpair iB iA h
      rw [hgA, hgB] at hle
      unfold rankLe at hle
      have := ((keyLe_iff _ _ eB eA).mp hle).1
      simp only [eA, eB] at this
      exact absurd this (by decide)
  refine ⟨iA, iB, hij, ?_, ?_⟩
  · rw [hout, List.get?_eq_get iA.isLt, hgA]
    rfl
  · rw [hout, List.get?_eq_get iB.isLt, hgB]
    rfl

/-- C3 witness inputs: `tC3a` matches the term `qr` only in its name,
`tC3b` only in its file path. -/
def tC3a : ExtractedType :=
  { name := ("QrThing".data), kind := .struct, exported := true, file := ("a.go".data),
    module := ("root".data), signature := ("sig".data), fullSignature := none,
    properties := [], methods := [], docs := none, value := none, lineNumber := none }

/-- Second C3 witness input. -/
def tC3b : ExtractedType :=
  { name := ("Other".data), kind := .struct, exported := true, file := ("qr/b.go".data),
    module := ("m".data), signature := ("x".data), fullSignature := none,
    properties := [], methods := [], docs := none, value := none, lineNumber := none }

/-- C3 witness: the theorem applied to the concrete pair for the query `qr`. -/
theorem claim_C3_name_beats_file_witness :
    ∃ i j : Nat, i < j ∧
      ((searchByContext [tC3a, tC3b] ("qr".data) 2 none none).get? i).map (fun r => r.type)
        = some tC3a ∧
      ((searchByContext [tC3a, tC3b] ("qr".data) 2 none none).get? j).map (fun r => r.type)
        = some tC3b :=
  (claim_C3_name_beats_file [tC3a, tC3b] ("qr".data) ("qr".data) 2 tC3a tC3b
    (by decide) (by decide) (by decide)
    (by unfold matchesOnlyNameSub; decide)
    (by unfold matchesOnlyFileSub; decide) (by decide)).2

theorem applyFilters_sublist (fM : Option (List Char)) (fK : Option ExtractedKind)
    (l : List ExtractedType) : (applyFilters fM fK l).Sublist l := by
  unfold applyFilters
  cases fM <;> cases fK <;> dsimp only
  · exact List.Sublist.refl l
  · exact List.filter_sublist l
  · split
    · exact List.Sublist.refl l
    · exact List.filter_sublist l
  · split
    · exact List.filter_sublist l
    · exact (List.filter_sublist _).trans (List.filter_sublist l)

theorem applyFilters_perm (fM : Option (List Char)) (fK : Option ExtractedKind)
    {l1 l2 : List ExtractedType} (h : List.Perm l1 l2) :
    List.Perm (applyFilters fM fK l1) (applyFilters fM fK l2) := by
  unfold applyFilters
  cases fM <;> cases fK <;> dsimp only
  · exact h
  · exact h.filter _
  · split
    · exact h
    · exact h.filter _
  · split
    · exact h.filter _
    · exact (h.filter _).filter _

theorem rankCandidates_names_sublist (terms : List (List Char)) :
    ∀ l : List ExtractedType,
      ((rankCandidates terms l).map fun r => r.type.name).Sublist
        (l.map fun t => t.name)
  | [] => by simp [rankCandidates]
  | t :: rest => by
    unfold rankCandidates
    simp only [List.filterMap_cons]
    split
    · simp only [List.map_cons]
      exact (rankCandidates_names_sublist terms rest).cons _
    · rename_i r heq
      have hr : r.type = t := by
        simp only [ite_eq_iff] at heq
        rcases heq with ⟨_, h2⟩ | ⟨_, h2⟩
        · cases h2
          rfl
        · cases h2
      simp only [List.map_cons, hr]
      exact (rankCandidates_names_sublist terms rest).cons₂ _

/-- C8: the claim says the ranking is identical for every permutation of the
candidate set. That fails when two distinct declarations share a score and a
name (the stable sort then preserves input order); it holds whenever the
candidates' names are pairwise distinct, since score-descending order with
the ascending-name tie-break is then antisymmetric on the candidates. -/
theorem claim_C8_stable_under_reordering (query : List Char) (limit : Nat)
    (fM : Option (List Char)) (fK : Option ExtractedKind)
    (l1 l2 : List ExtractedType) (hperm : List.Perm l1 l2)
    (hnames : (l1.map fun t => t.name).Nodup) :
    searchByContext l1 query limit fM fK = searchByContext l2 query limit fM fK := by
  unfold searchByContext
  set terms := termsOf query
  set f1 := applyFilters fM fK l1 with hf1
  set f2 := applyFilters fM fK l2 with hf2
  have hfperm : List.Perm f1 f2 := applyFilters_perm fM fK hperm
  have hrperm : List.Perm (rankCandidates terms f1) (rankCandidates terms f2) :=
    List.Perm.filterMap _ hfperm
  have hs1 := sortStable_pairwise rankLe_total rankLe_trans
    (rankCandidates terms f1)
  have hs2 := sortStable_pairwise rankLe_total rankLe_trans
    (rankCandidates terms f2)
  have hsortperm : List.Perm (sortStable rankLe (rankCandidates terms f1))
      (sortStable rankLe (rankCandidates terms f2)) :=
    ((sortStable_perm rankLe _).trans hrperm).trans (sortStable_perm rankLe _).symm
  have hnodup1 : ((sortStable rankLe (rankCandidates terms f1)).map
      fun r => r.type.name).Nodup := by
    have ha : ((rankCandidates terms f1).map fun r => r.type.name).Nodup := by
      refine List.Nodup.sublist ?_ hnames
      exact (rankCandidates_names_sublist terms f1).trans
        ((applyFilters_sublist fM fK l1).map _)
    exact (((sortStable_perm rankLe (rankCandidates terms f1)).map _).symm).nodup ha
  have heq : sortStable rankLe (rankCandidates terms f1)
      = sortStable rankLe (rankCandidates terms f2) := by
    apply sorted_perm_eq hsortperm ?_ hs1 hs2
    intro x hx y hy hxy hyx
    have hkeys := keyLe_antisymm_keys (fun r => r.score) (fun r => r.type.name) x y
      (by unfold rankLe at hxy; exact hxy) (by unfold rankLe at hyx; exact hyx)
    exact List.inj_on_of_nodup_map hnodup1 hx hy hkeys.2
  show (sortStable rankLe (rankCandidates terms f1)).take (Nat.max 1 limit)
      = (sortStable rankLe (rankCandidates terms f2)).take (Nat.max 1 limit)
  rw [heq]

/-- C8 counterexample input: two distinct declarations with the same name. -/
def tC8a : ExtractedType :=
  { name := ("Foo".data), kind := .struct, exported := true, file := ("a.go".data),
    module := ("root".data), signature := ("a".data), fullSignature := none,
    properties := [], methods := [], docs := none, value := none, lineNumber := none }

/-- Second C8 counterexample input (same name, different file). -/
def tC8b : ExtractedType :=
  { name := ("Foo".data), kind := .struct, exported := true, file := ("b.go".data),
    module := ("root".data), signature := ("b".data), fullSignature := none,
    properties := [], methods := [], docs := none, value := none, lineNumber := none }

/-- A declaration with a distinct name for the C8 witness. -/
def tC8c : ExtractedType :=
  { name := ("Bar".data), kind := .struct, exported := true, file := ("foo.go".data),
    module := ("root".data), signature := ("c".data), fullSignature := none,
    properties := [], methods := [], docs := none, value := none, lineNumber := none }

/-- C8 counterexample: `[tC8b, tC8a]` is a permutation of `[tC8a, tC8b]`
(two distinct declarations that share the name `Foo` and hence the score and
the tie-break key), yet the two orders of the candidate set give different
ranked sequences — the stable sort preserves the input order of the tied
pair, refuting the claim as stated. -/
theorem claim_C8_counterexample :
    List.Perm [tC8b, tC8a] [tC8a, tC8b] ∧
      searchByContext [tC8a, tC8b] ("foo".data) 5 none none
        ≠ searchByContext [tC8b, tC8a] ("foo".data) 5 none none :=
  ⟨List.Perm.swap tC8a tC8b [], by decide⟩

/-- C8 witness: the amended theorem applied to a two-element candidate set
with distinct names, in both orders. -/
theorem claim_C8_stable_under_reordering_witness :
    searchByContext [tC8a, tC8c] ("foo".data) 5 none none
      = searchByContext [tC8c, tC8a] ("foo".data) 5 none none :=
  claim_C8_stable_under_reordering ("foo".data) 5 none none [tC8a, tC8c] [tC8c, tC8a]
    (List.Perm.swap tC8c tC8a []) (by decide)

theorem capGo_chunk_mem (openC closeC : Char) (lastIdx : Nat) :
    ∀ (rem : List (List Char)) (idx : Nat) (bal : Int) (st : Bool)
      (chunk : List (List Char)),
      ∀ l ∈ (capGo openC closeC lastIdx rem idx bal st chunk).1,
        l ∈ chunk ∨ l ∈ rem
  | [], idx, bal, st, chunk => by
    intro l hl
    exact Or.inl hl
  | r :: rest, idx, bal, st, chunk => by
    intro l hl
    rw [capGo] at hl
    split at hl
    · rcases List.mem_append.mp hl with h | h
      · exact Or.inl h
      · exact Or.inr (by simpa using Or.inl (List.mem_singleton.mp h))
    · rcases capGo_chunk_mem openC closeC lastIdx rest (idx + 1) _ _ _ l hl with h | h
      · rcases List.mem_append.mp h with h2 | h2
        · exact Or.inl h2
        · exact Or.inr (by simpa using Or.inl (List.mem_singleton.mp h2))
      · exact Or.inr (List.mem_cons_of_mem _ h)

theorem capGo_chunk_ne_nil (openC closeC : Char) (lastIdx : Nat) :
    ∀ (rem : List (List Char)) (idx : Nat) (bal : Int) (st : Bool)
      (chunk : List (List Char)), chunk ≠ [] ∨ rem ≠ [] →
      (capGo openC closeC lastIdx rem idx bal st chunk).1 ≠ []
  | [], idx, bal, st, chunk => by
    intro h
    rcases h with h | h
    · exact h
    · exact absurd rfl h
  | r :: rest, idx, bal, st, chunk => by
    intro _
    rw [capGo]
    split
    · simp
    · exact capGo_chunk_ne_nil openC closeC lastIdx rest (idx + 1) _ _ _
        (Or.inl (by simp))

theorem capGo_snd_ge (openC closeC : Char) (lastIdx : Nat) :
    ∀ (rem : List (List Char)) (idx : Nat) (bal : Int) (st : Bool)
      (chunk : List (List Char)) (idx0 : Nat), idx0 ≤ idx →
      idx + rem.length = lastIdx + 1 → rem ≠ [] →
      idx0 ≤ (capGo openC closeC lastIdx rem idx bal st chunk).2
  | [], _, _, _, _, _ => by
    intro _ _ h
    exact absurd rfl h
  | r :: rest, idx, bal, st, chunk, idx0 => by
    intro h0 hlen _
    rw [capGo]
    split
    · exact h0
    · match rest, hlen with
      | [], hlen =>
        rw [capGo]
        simp only [List.length_cons, List.length_nil] at hlen
        omega
      | r2 :: rest2, hlen =>
        refine capGo_snd_ge openC closeC lastIdx (r2 :: rest2) (idx + 1) _ _ _ idx0
          (Nat.le_succ_of_le h0) ?_ (by simp)
        simp only [List.length_cons] at hlen ⊢
        omega

/-- A line with no newline chars passes through `splitLinesGo` unchanged. -/
theorem splitLinesGo_clean (l : List Char)
    (h : ∀ ch ∈ l, ch ≠ '\n' ∧ ch ≠ '\r') :
    ∀ acc : List Char, splitLinesGo acc l = [acc.reverse ++ l] := by
  induction l with
  | nil => intro acc; simp [splitLinesGo]
  | cons c rest ih =>
    intro acc
    have hc := h c (List.mem_cons_self c rest)
    rw [splitLinesGo]
    · rw [ih (fun ch hch => h ch (List.mem_cons_of_mem c hch)) (c :: acc)]
      simp
    · intro hcn
      exact hc.1 hcn
    · intro r2 hcr _
      exact hc.2 hcr

theorem splitLinesGo_clean_append (l rest : List Char)
    (h : ∀ ch ∈ l, ch ≠ '\n' ∧ ch ≠ '\r') :
    ∀ acc : List Char,
      splitLinesGo acc (l ++ '\n' :: rest) = (acc.reverse ++ l) :: splitLinesGo [] rest := by
  induction l with
  | nil => intro acc; simp [splitLinesGo]
  | cons c l2 ih =>
    intro acc
    have hc := h c (List.mem_cons_self c l2)
    rw [List.cons_append, splitLinesGo]
    · rw [ih (fun ch hch => h ch (List.mem_cons_of_mem c hch)) (c :: acc)]
      simp
    · intro hcn
      exact hc.1 hcn
    · intro r2 hcr _
      exact hc.2 hcr

theorem splitLines_joinNl :
    ∀ c : List (List Char), c ≠ [] →
      (∀ l ∈ c, ∀ ch ∈ l, ch ≠ '\n' ∧ ch ≠ '\r') →
      splitLines (joinNl c) = c
  | [], hne, _ => absurd rfl hne
  | [l], _, h => by
    unfold splitLines joinNl
    rw [splitLinesGo_clean l (h l (List.mem_singleton_self l)) []]
    simp
  | l :: l2 :: ls, _, h => by
    unfold splitLines
    have hjoin : joinNl (l :: l2 :: ls) = l ++ '\n' :: joinNl (l2 :: ls) := rfl
    rw [hjoin, splitLinesGo_clean_append l _ (h l (List.mem_cons_self l _)) []]
    simp only [List.reverse_nil, List.nil_append]
    have := splitLines_joinNl (l2 :: ls) (by simp)
      (fun x hx ch hch => h x (List.mem_cons_of_mem l hx) ch hch)
    unfold splitLines at this
    rw [this]

theorem matchTypeBlock_nil (kw : List Char) : matchTypeBlock kw [] = none := by
  have h : (("type".data).isPrefixOf ([] : List Char)) = false := by decide
  simp [matchTypeBlock, h]

theorem matchTypeBlock_ne_nil {kw s : List Char} {nm : List Char}
    (h : matchTypeBlock kw s = some nm) : s ≠ [] := by
  intro hs
  rw [hs, matchTypeBlock_nil] at h
  cases h

theorem methodLineMatch_comment {t : List Char}
    (h : ("//".data).isPrefixOf t = true) : methodLineMatch t = none := by
  obtain ⟨tail, htl⟩ := List.isPrefixOf_iff_prefix.mp h
  subst htl
  rfl

theorem parseInterfaceMethods_length (blockText : List Char) :
    (parseInterfaceMethods blockText).length =
      (((splitLines blockText).drop 1).dropLast).countP
        (fun l => (methodLineMatch (jsTrim l)).isSome) := by
  unfold parseInterfaceMethods
  rw [List.length_filterMap_eq_countP]
  apply List.countP_congr
  intro l _
  by_cases he : (jsTrim l).isEmpty
  · have h0 : jsTrim l = [] := by simpa [List.isEmpty_iff] using he
    simp [he, h0, methodLineMatch]
  · by_cases hcs : ("//".data).isPrefixOf (jsTrim l)
    · simp [he, hcs, methodLineMatch_comment hcs]
    · simp only [he, Bool.false_eq_true, if_false, hcs]
      cases methodLineMatch (jsTrim l) with
      | none => simp
      | some v =>
        match v with
        | (nm, ps, ret) => simp

/-- C4: when the scan reaches a contract (interface) declaration line, it
emits exactly one contract declaration whose method members are one per
interior block line matching the method shape (so N matching interior lines
give N members), and the loop resumes at `endLine + 1`, strictly after the
block's closing line, so no block line is re-emitted as a top-level
declaration. -/
theorem claim_C4_contract_scan (relFile modName : List Char) (lines : List (List Char))
    (fuel i : Nat) (nm : List Char)
    (hclean : ∀ l ∈ lines, ∀ ch ∈ l, ch ≠ '\n' ∧ ch ≠ '\r')
    (hIdx : i < lines.length)
    (hMatch : matchTypeBlock ("interface".data) (jsTrim (lines.get ⟨i, hIdx⟩)) = some nm) :
    scanGo relFile modName lines (fuel + 1) i =
      { name := nm, kind := .interface, exported := true, file := relFile,
        module := modName,
        signature := firstLineOf (captureBracedBlock lines i).text,
        fullSignature := some (captureBracedBlock lines i).text,
        properties := [],
        methods := parseInterfaceMethods (captureBracedBlock lines i).text,
        docs := extractDocAbove lines i, value := none,
        lineNumber := some (i + 1) }
        :: scanGo relFile modName lines fuel ((captureBracedBlock lines i).endLine + 1) ∧
    (parseInterfaceMethods (captureBracedBlock lines i).text).length =
      (((capChunk '\x7b' '\x7d' lines i).1.drop 1).dropLast).countP
        (fun l => (methodLineMatch (jsTrim l)).isSome) ∧
    i ≤ (captureBracedBlock lines i).endLine := by
  have hne : jsTrim (lines.get ⟨i, hIdx⟩) ≠ [] := matchTypeBlock_ne_nil hMatch
  have hne2 : (jsTrim (lines.get ⟨i, hIdx⟩)).isEmpty = false := by
    simpa [List.isEmpty_iff] using hne
  refine ⟨?_, ?_, ?_⟩
  · conv_lhs => rw [scanGo]
    rw [dif_pos hIdx]
    simp only [hne2, Bool.false_eq_true, if_false, hMatch]
  · have hchunkne : (capChunk '\x7b' '\x7d' lines i).1 ≠ [] := by
      unfold capChunk
      apply capGo_chunk_ne_nil
      right
      simp only [ne_eq, List.drop_eq_nil_iff]
      omega
    have hchunkclean : ∀ l ∈ (capChunk '\x7b' '\x7d' lines i).1,
        ∀ ch ∈ l, ch ≠ '\n' ∧ ch ≠ '\r' := by
      intro l hl
      unfold capChunk at hl
      rcases capGo_chunk_mem _ _ _ _ _ _ _ _ l hl with h | h
      · exact absurd h (List.not_mem_nil l)
      · exact hclean l (List.mem_of_mem_drop h)
    have htext : (captureBracedBlock lines i).text
        = joinNl (capChunk '\x7b' '\x7d' lines i).1 := rfl
    rw [parseInterfaceMethods_length, htext,
      splitLines_joinNl _ hchunkne hchunkclean]
  · have hsnd : (captureBracedBlock lines i).endLine
        = (capChunk '\x7b' '\x7d' lines i).2 := rfl
    rw [hsnd]
    unfold capChunk
    apply capGo_snd_ge _ _ _ _ _ _ _ _ i (Nat.le_refl i)
    · simp only [List.length_drop]
      omega
    · simp only [ne_eq, List.drop_eq_nil_iff]
      omega


/-- The C4 witness file: one contract block with one method-shaped interior
line and one non-matching interior line. -/
def exC4lines : List (List Char) :=
  splitLines ("type I interface \x7b\nDo(x int) error\nx\n\x7d".data)

/-- C4 witness: the theorem applied to `exC4lines` at line 0; the block has
exactly one method-shaped interior line and one method member. -/
theorem claim_C4_contract_scan_witness :
    (parseInterfaceMethods (captureBracedBlock exC4lines 0).text).length = 1 ∧
      0 ≤ (captureBracedBlock exC4lines 0).endLine := by
  have h := claim_C4_contract_scan ("a.go".data) ("root".data) exC4lines 5 0 ("I".data)
    (by decide) (by decide) (by decide)
  refine ⟨?_, h.2.2⟩
  rw [h.2.1]
  decide

/-- C10: when the scan reaches a grouped `const (` block, every member
declaration produced from the block carries the single doc value collected
above the block's *opening* line (`extractDocAbove lines i`): all members of
one block share identical docs, and no member's docs come from comments
adjacent to its own line inside the block. (The `var (` branch is the same
code with a different kind literal.) -/
theorem claim_C10_grouped_docs_shared (relFile modName : List Char) (lines : List (List Char))
    (fuel i : Nat)
    (hIdx : i < lines.length)
    (h1 : matchTypeBlock ("interface".data) (jsTrim (lines.get ⟨i, hIdx⟩)) = none)
    (h2 : matchTypeBlock ("struct".data) (jsTrim (lines.get ⟨i, hIdx⟩)) = none)
    (h3 : matchTypeAlias (jsTrim (lines.get ⟨i, hIdx⟩)) = none)
    (h4 : matchMethodDecl (jsTrim (lines.get ⟨i, hIdx⟩)) = none)
    (h5 : matchFuncDecl (jsTrim (lines.get ⟨i, hIdx⟩)) = none)
    (h6 : isConstParen (jsTrim (lines.get ⟨i, hIdx⟩)) = true) :
    scanGo relFile modName lines (fuel + 1) i =
      ((parseConstVarBlockMembers (captureParenBlock lines i).text).filterMap fun mem =>
        if isUpperStart mem.name then
          some { name := mem.name, kind := ExtractedKind.const, exported := true,
                 file := relFile, module := modName, signature := mem.signature,
                 fullSignature := none, properties := [], methods := [],
                 docs := extractDocAbove lines i, value := mem.value,
                 lineNumber := some mem.lineNumber }
        else none)
        ++ scanGo relFile modName lines fuel ((captureParenBlock lines i).endLine + 1) ∧
    (∀ d ∈ ((parseConstVarBlockMembers (captureParenBlock lines i).text).filterMap fun mem =>
        if isUpperStart mem.name then
          some { name := mem.name, kind := ExtractedKind.const, exported := true,
                 file := relFile, module := modName, signature := mem.signature,
                 fullSignature := none, properties := [], methods := [],
                 docs := extractDocAbove lines i, value := mem.value,
                 lineNumber := some mem.lineNumber }
        else none : List ExtractedType),
      d.docs = extractDocAbove lines i) := by
  have hne : jsTrim (lines.get ⟨i, hIdx⟩) ≠ [] := by
    intro hnil
    rw [hnil] at h6
    exact absurd h6 (by decide)
  have hne2 : (jsTrim (lines.get ⟨i, hIdx⟩)).isEmpty = false := by
    simpa [List.isEmpty_iff] using hne
  have halias : (if aliasExcluded (jsTrim (lines.get ⟨i, hIdx⟩)) then none
      else matchTypeAlias (jsTrim (lines.get ⟨i, hIdx⟩))) = none := by
    rw [h3]
    exact ite_self none
  constructor
  · conv_lhs => rw [scanGo]
    rw [dif_pos hIdx]
    simp only [hne2, Bool.false_eq_true, if_false, h1, h2, halias, h4, h5, h6, if_true]
  · intro d hd
    obtain ⟨mem, _, hmem⟩ := List.mem_filterMap.mp hd
    by_cases hu : isUpperStart mem.name
    · rw [if_pos hu] at hmem
      cases hmem
      rfl
    · rw [if_neg hu] at hmem
      cases hmem

/-- The C10 witness file: a grouped const block with an interior comment
directly above its second member. -/
def exC10lines : List (List Char) :=
  splitLines ("const (\n\t// near A\n\tA = 1\n\tB = 2\n)".data)

/-- The declaration the scanner produces for member `A` of `exC10lines`. -/
def dC10A : ExtractedType :=
  { name := ("A".data), kind := ExtractedKind.const, exported := true,
    file := ("a.go".data), module := ("root".data), signature := ("A = 1".data),
    fullSignature := none, properties := [], methods := [], docs := none,
    value := some (("= 1".data)), lineNumber := some 3 }

/-- C10 witness: applying the theorem to the concrete block shows member `A`
carries the docs collected above the block's opening line (none here), not
the `// near A` comment adjacent to its own line. -/
theorem claim_C10_grouped_docs_shared_witness :
    dC10A.docs = extractDocAbove exC10lines 0 ∧ dC10A.docs ≠ some ("near A".data) :=
  ⟨(claim_C10_grouped_docs_shared ("a.go".data) ("root".data) exC10lines 5 0
      (by decide) (by decide) (by decide) (by decide) (by decide) (by decide)
      (by decide)).2 dC10A (by decide), by decide⟩

/-- The per-module export accumulation that `depPhase2` performs entrywise. -/
def exportsFold (k : List Char) (ts : List ExtractedType)
    (acc : List (List Char)) : List (List Char) :=
  ts.foldl (fun a t => if k = t.module then setAdd a t.name else a) acc

theorem depPhase2_eq_map :
    ∀ (ts : List ExtractedType)
      (m : List (List Char × List (List Char) × List (List Char))),
      depPhase2 m ts = m.map fun e => (e.1, e.2.1, exportsFold e.1 ts e.2.2)
  | [], m => by
    simp [depPhase2, exportsFold]
  | t :: ts, m => by
    have h1 : depPhase2 m (t :: ts) = depPhase2 (depAddExport m t.module t.name) ts := by
      simp [depPhase2]
    rw [h1, depPhase2_eq_map ts (depAddExport m t.module t.name)]
    unfold depAddExport
    rw [List.map_map]
    apply List.map_congr_left
    intro e _
    by_cases he : e.1 = t.module
    · simp only [Function.comp_apply, he, if_pos rfl]
      simp [exportsFold, he]
    · simp only [Function.comp_apply, if_neg he]
      simp [exportsFold, he]

theorem setAdd_nodup (l : List (List Char)) (x : List Char) (h : l.Nodup) :
    (setAdd l x).Nodup := by
  unfold setAdd
  split
  · exact h
  · rename_i hx
    simp [List.nodup_append, h, hx]

theorem foldl_setAdd_nodup :
    ∀ (xs : List (List Char)) (acc : List (List Char)), acc.Nodup →
      (xs.foldl setAdd acc).Nodup
  | [], acc, h => h
  | x :: xs, acc, h => foldl_setAdd_nodup xs (setAdd acc x) (setAdd_nodup acc x h)

theorem exportsFold_eq_dedup (k : List Char) :
    ∀ (ts : List ExtractedType) (acc : List (List Char)),
      exportsFold k ts acc
        = ((ts.filter fun t => k = t.module).map fun t => t.name).foldl setAdd acc
  | [], acc => rfl
  | t :: ts, acc => by
    by_cases h : k = t.module
    · simp only [exportsFold, List.foldl_cons, if_pos h, List.filter_cons]
      rw [if_pos (by simpa using h)]
      simp only [List.map_cons, List.foldl_cons]
      exact exportsFold_eq_dedup k ts (setAdd acc t.name)
    · simp only [exportsFold, List.foldl_cons, if_neg h, List.filter_cons]
      rw [if_neg (by simpa using h)]
      exact exportsFold_eq_dedup k ts acc

theorem strLe_total (a b : List Char) : strLe a b = true ∨ strLe b a = true := by
  unfold strLe
  cases h1 : strLtB b a with
  | false => exact Or.inl rfl
  | true =>
    cases h2 : strLtB a b with
    | false => exact Or.inr rfl
    | true => exact absurd (strLtB_asymm h2) (by simp [h1])

theorem strLe_trans (a b c : List Char) (h1 : strLe a b = true) (h2 : strLe b c = true) :
    strLe a c = true := by
  unfold strLe at h1 h2 ⊢
  simp only [Bool.not_eq_eq_eq_not, Bool.not_true] at h1 h2 ⊢
  cases hca : strLtB c a with
  | false => rfl
  | true =>
    exfalso
    cases hab : strLtB a b with
    | true => exact absurd (strLtB_trans hca hab) (by simp [h2])
    | false =>
      have : a = b := strLtB_connex hab h1
      rw [this] at hca
      exact absurd hca (by simp [h2])

theorem pairwise_strLt_of_le_nodup (l : List (List Char))
    (hp : l.Pairwise fun a b => strLe a b = true) (hnd : l.Nodup) :
    l.Pairwise fun a b => strLtB a b = true := by
  have hcomb := hp.and hnd
  apply hcomb.imp
  intro a b hab
  obtain ⟨hle, hne⟩ := hab
  unfold strLe at hle
  simp only [Bool.not_eq_eq_eq_not, Bool.not_true] at hle
  cases hab2 : strLtB a b with
  | true => rfl
  | false => exact absurd (strLtB_connex hab2 hle) hne

/-- Entrywise invariant preservation through a `foldl` that rebuilds the
association list at each step. -/
theorem foldl_entries_preserve {β : Type}
    (P : List Char × List (List Char) × List (List Char) → Prop)
    (f : List (List Char × List (List Char) × List (List Char)) → β →
      List (List Char × List (List Char) × List (List Char)))
    (hstep : ∀ m b, (∀ e ∈ m, P e) → ∀ e ∈ f m b, P e) :
    ∀ (bs : List β) (m : List (List Char × List (List Char) × List (List Char))),
      (∀ e ∈ m, P e) → ∀ e ∈ bs.foldl f m, P e
  | [], _, h => h
  | b :: bs, m, h => foldl_entries_preserve P f hstep bs (f m b) (hstep m b h)

theorem depAddImport_preserve (m : List (List Char × List (List Char) × List (List Char)))
    (k v : List Char) (h : ∀ e ∈ m, e.2.2 = [] ∧ e.2.1.Nodup) :
    ∀ e ∈ depAddImport m k v, e.2.2 = [] ∧ e.2.1.Nodup := by
  intro e he
  obtain ⟨e0, he0, heq⟩ := List.mem_map.mp he
  have h0 := h e0 he0
  by_cases hk : e0.1 = k
  · rw [if_pos hk] at heq
    subst heq
    exact ⟨h0.1, setAdd_nodup _ _ h0.2⟩
  · rw [if_neg hk] at heq
    subst heq
    exact h0

theorem depPhase1_inv (files : List (List Char × List Char)) :
    ∀ e ∈ depPhase1 files, e.2.2 = [] ∧ e.2.1.Nodup := by
  unfold depPhase1
  apply foldl_entries_preserve (fun e => e.2.2 = [] ∧ e.2.1.Nodup)
  · intro m f hm
    apply foldl_entries_preserve (fun e => e.2.2 = [] ∧ e.2.1.Nodup)
      (fun mm v => depAddImport mm (getModuleName f.1) v)
    · intro m2 v hm2
      exact depAddImport_preserve m2 (getModuleName f.1) v hm2
    · intro e he
      split at he
      · exact hm e he
      · rcases List.mem_append.mp he with h2 | h2
        · exact hm e h2
        · rcases List.mem_singleton.mp h2 with rfl
          exact ⟨rfl, List.nodup_nil⟩
  · intro e he
    exact absurd he (List.not_mem_nil e)

/-- C6: for every module reported by `analyzeDependencies`, the exports list
is exactly the deduplicated, sorted list of names of indexed declarations
whose `module` equals that module (files feed only the import sets, never
the export sets — exports come from the declaration index alone), and both
the imports and exports lists are strictly sorted (sorted and
duplicate-free). -/
theorem claim_C6_exports_from_index (files : List (List Char × List Char)) (e : DependencyInfo)
    (he : e ∈ analyzeDependencies files) :
    e.exports = sortStable strLe (dedupFirst
      (((extractAllTypes files).filter fun t => e.module = t.module).map fun t => t.name)) ∧
    e.exports.Pairwise (fun a b => strLtB a b = true) ∧
    e.imports.Pairwise (fun a b => strLtB a b = true) := by
  unfold analyzeDependencies at he
  have he2 := (sortStable_perm depLe _).subset he
  obtain ⟨entry, hentry, heq⟩ := List.mem_map.mp he2
  rw [depPhase2_eq_map] at hentry
  obtain ⟨p1, hp1, hpe⟩ := List.mem_map.mp hentry
  have hinv := depPhase1_inv files p1 hp1
  subst hpe
  subst heq
  simp only
  have hexp : exportsFold p1.1 (extractAllTypes files) p1.2.2
      = dedupFirst (((extractAllTypes files).filter fun t => p1.1 = t.module).map
          fun t => t.name) := by
    rw [exportsFold_eq_dedup, hinv.1]
    rfl
  refine ⟨?_, ?_, ?_⟩
  · rw [hexp]
  · rw [hexp]
    apply pairwise_strLt_of_le_nodup
    · exact sortStable_pairwise strLe_total strLe_trans _
    · refine ((sortStable_perm strLe _).symm.nodup ?_)
      unfold dedupFirst
      exact foldl_setAdd_nodup _ [] List.nodup_nil
  · apply pairwise_strLt_of_le_nodup
    · exact sortStable_pairwise strLe_total strLe_trans _
    · exact (sortStable_perm strLe _).symm.nodup hinv.2

/-- The C6 witness tree: three files across two modules (`root` and `m`). -/
def exC6files : List (List Char × List Char) :=
  [(("a.go".data), ("import \"fmt\"\n\ntype A1 struct \x7b\n\x7d\n".data)),
   (("m/b.go".data), ("import (\n\t\"io\"\n\talias \"net/http\"\n)\n\nfunc B1() \x7b\n\x7d\n".data)),
   (("m/c.go".data), ("const (\n\tC1 = 1\n\tlow = 2\n)\n".data))]

/-- The `m` entry that `analyzeDependencies` reports for `exC6files`. -/
def exC6entry : DependencyInfo :=
  { module := ("m".data), imports := [("io".data), ("net/http".data)],
    exports := [("B1".data), ("C1".data)], reExportsFrom := [] }

/-- C6 witness: the theorem applied to the concrete synthetic tree at its
`m` entry. -/
theorem claim_C6_exports_from_index_witness :
    exC6entry.exports = sortStable strLe (dedupFirst
      (((extractAllTypes exC6files).filter fun t => exC6entry.module = t.module).map
        fun t => t.name)) :=
  (claim_C6_exports_from_index exC6files exC6entry (by decide)).1
